import Mathlib

/-!
# VoiceBridge: text normaliser and signal conditioner

A shallow embedding of `text_processor.cpp` and `audio_processor.cpp`.

* A `std::string` is the list of its characters.  The classification functions
  of `<cctype>` are those of the "C" locale: only ASCII characters are spaces,
  digits or letters.
* `size_t` is a natural number below `2 ^ w`, where `w` is the word size of the
  target ABI (32 or 64); `std::string::npos` is `2 ^ w - 1` and `npos + 1`
  wraps to `0`.
* A library call that throws (`std::out_of_range`) returns `Except.error`.
-/

namespace VoiceBridge

/-- Ways in which an embedded computation can leave the model. -/
inductive Fault where
  | out_of_range
  | div_by_zero
  | no_fuel
  deriving DecidableEq, Repr

deriving instance DecidableEq for Except

/-- A `std::string`: its sequence of characters. -/
abbrev CppString := List Char

/-! ## `<cctype>` in the "C" locale -/

/-- The classifier `std::isspace`: space, `\t`, `\n`, `\v`, `\f`, `\r`. -/
def isspace (c : Char) : Bool :=
  c == ' ' || c == '\t' || c == '\n' || c == Char.ofNat 11 || c == Char.ofNat 12 || c == '\r'

/-- The classifier `std::isdigit`: `0` to `9`. -/
def isdigit (c : Char) : Bool :=
  decide (48 ≤ c.toNat ∧ c.toNat ≤ 57)

/-- The mapping `::tolower`: `A`..`Z` go to `a`..`z`, everything else is kept. -/
def tolower (c : Char) : Char :=
  if 65 ≤ c.toNat ∧ c.toNat ≤ 90 then Char.ofNat (c.toNat + 32) else c

/-- The mapping `std::toupper`: `a`..`z` go to `A`..`Z`, everything else is kept. -/
def toupper (c : Char) : Char :=
  if 97 ≤ c.toNat ∧ c.toNat ≤ 122 then Char.ofNat (c.toNat - 32) else c

/-! ## `std::string` members used by the text processor -/

/-- The constant `std::string::npos`, the largest `size_t`. -/
def npos (w : Nat) : Nat := 2 ^ w - 1

/-- Scan of `find`: `i` is the index of the head of the list in the whole string. -/
def findFrom (w : Nat) (pat : CppString) : CppString → Nat → Nat
  | [], i => if pat = [] then i else npos w
  | c :: cs, i => if pat.isPrefixOf (c :: cs) then i else findFrom w pat cs (i + 1)

/-- The member `s.find(pat, pos)`: the first index `i ≥ pos` at which `pat` occurs,
or `npos`. -/
def find (w : Nat) (s pat : CppString) (pos : Nat) : Nat :=
  if s.length < pos then npos w else findFrom w pat (s.drop pos) pos

/-- Scan of `find_first_not_of`. -/
def firstNotOfFrom (w : Nat) (ch : Char) : CppString → Nat → Nat
  | [], _ => npos w
  | c :: cs, i => if c ≠ ch then i else firstNotOfFrom w ch cs (i + 1)

/-- The member `s.find_first_not_of(ch)`: index of the first character different
from `ch`, or `npos`. -/
def find_first_not_of (w : Nat) (s : CppString) (ch : Char) : Nat :=
  firstNotOfFrom w ch s 0

/-- The member `s.find_last_not_of(ch)`: index of the last character different
from `ch`, or `npos`.  The scan runs from the back of the string. -/
def find_last_not_of (w : Nat) (s : CppString) (ch : Char) : Nat :=
  if firstNotOfFrom w ch s.reverse 0 = npos w then npos w
  else s.length - 1 - firstNotOfFrom w ch s.reverse 0

/-- The member `s.erase(pos, n)`: throws when `pos > size()`, otherwise removes
`min(n, size() - pos)` characters starting at `pos`. -/
def erase (s : CppString) (pos n : Nat) : Except Fault CppString :=
  if s.length < pos then .error .out_of_range
  else .ok (s.take pos ++ s.drop (pos + min n (s.length - pos)))

/-- The member `s.replace(pos, n, t)`: throws when `pos > size()`, otherwise
replaces `min(n, size() - pos)` characters starting at `pos` by `t`. -/
def replace (s : CppString) (pos n : Nat) (t : CppString) : Except Fault CppString :=
  if s.length < pos then .error .out_of_range
  else .ok (s.take pos ++ t ++ s.drop (pos + min n (s.length - pos)))

/-- The member `s.substr(pos, n)`: throws when `pos > size()`. -/
def substr (s : CppString) (pos n : Nat) : Except Fault CppString :=
  if s.length < pos then .error .out_of_range
  else .ok ((s.drop pos).take n)

/-! ## `TextProcessor` -/

/-- The loop `while ((pos = result.find("  ", pos)) != npos) result.replace(pos, 2, " ");`
of `cleanText`.  Every iteration shortens `result`, so `fuel` bounds the number
of iterations. -/
def collapseLoop (w : Nat) : Nat → CppString → Nat → Except Fault CppString
  | 0, _, _ => .error .no_fuel
  | fuel + 1, result, pos =>
    let pos1 := find w result [' ', ' '] pos
    if pos1 = npos w then .ok result
    else
      match replace result pos1 2 [' '] with
      | .error e => .error e
      | .ok result1 => collapseLoop w fuel result1 pos1

/-- The function `TextProcessor::cleanText`. -/
def cleanText (w : Nat) (input : CppString) : Except Fault CppString :=
  -- result.erase(std::remove_if(.., isspace(c) && c != ' '), result.end())
  let result0 := input.filter (fun c => !(isspace c && c != ' '))
  match collapseLoop w (result0.length + 1) result0 0 with
  | .error e => .error e
  | .ok result1 =>
    -- result.erase(0, result.find_first_not_of(' '))
    match erase result1 0 (find_first_not_of w result1 ' ') with
    | .error e => .error e
    | .ok result2 =>
      -- result.erase(result.find_last_not_of(' ') + 1)
      erase result2 ((find_last_not_of w result2 ' ' + 1) % 2 ^ w) (npos w)

/-- The table `actionWords` of `extractCommands`. -/
def actionWords : List CppString :=
  ["fill".toList, "enter".toList, "select".toList, "click".toList,
   "tap".toList, "open".toList, "close".toList, "submit".toList]

/-- The extraction `iss >> word`: skip leading whitespace, then read characters up
to the next whitespace or the end of the stream.  It fails (`none`) when no
character could be read; otherwise it gives the word and the rest of the stream. -/
def readWord (stream : CppString) : Option (CppString × CppString) :=
  let s := stream.dropWhile isspace
  let word := s.takeWhile (fun c => !isspace c)
  if word = [] then none else some (word, s.dropWhile (fun c => !isspace c))

/-- The loop `while (iss >> word) { ... }` of `extractCommands`.  Every iteration
consumes at least one character of the stream. -/
def extractLoop : Nat → CppString → List CppString → Except Fault (List CppString)
  | 0, _, _ => .error .no_fuel
  | fuel + 1, stream, commands =>
    match readWord stream with
    | none => .ok commands
    | some (word, rest) =>
      let lowerWord := word.map tolower
      if lowerWord ∈ actionWords then extractLoop fuel rest (commands ++ [word])
      else extractLoop fuel rest commands

/-- The function `TextProcessor::extractCommands`. -/
def extractCommands (text : CppString) : Except Fault (List CppString) :=
  extractLoop (text.length + 1) text []

/-- The loop `for (char& c : formatted)` of the "name" branch of `formatForForm`:
the state is the flag `capitalizeNext`. -/
def capitalizeLoop : Bool → CppString → CppString
  | _, [] => []
  | capitalizeNext, c :: cs =>
    if isspace c then c :: capitalizeLoop true cs
    else if capitalizeNext then toupper c :: capitalizeLoop false cs
    else c :: capitalizeLoop capitalizeNext cs

/-- The function `TextProcessor::formatForForm`. -/
def formatForForm (w : Nat) (text fieldType : CppString) : Except Fault CppString :=
  match cleanText w text with
  | .error e => .error e
  | .ok formatted =>
    if fieldType = "phone".toList then
      let digits := formatted.filter (fun c => !(!isdigit c))
      if digits.length = 10 then
        match substr digits 0 3, substr digits 3 3, substr digits 6 4 with
        | .ok a, .ok b, .ok c => .ok (['('] ++ a ++ [')', ' '] ++ b ++ ['-'] ++ c)
        | _, _, _ => .error .out_of_range
      else .ok digits
    else if fieldType = "email".toList then
      .ok (formatted.map tolower)
    else if fieldType = "name".toList then
      .ok (capitalizeLoop true formatted)
    else .ok formatted

/-! ## `AudioProcessor`

A `float` is the rational number it denotes; NaN and the infinities are added in
the section on `Float32` below.  Every arithmetic operation returns `rnd` of the exact result, where
`rnd : ℚ → ℚ` is the rounding of the float format (`rnd = id` is exact
arithmetic); `std::abs`, `std::max` and the comparisons are exact.  An expression
is evaluated operation by operation.  A division by zero, whose result would be
NaN or an infinity, returns `Except.error`, and so does an access `v[i]` beyond
the end of a vector. -/

/-- Float addition. -/
def fadd (rnd : ℚ → ℚ) (x y : ℚ) : ℚ := rnd (x + y)

/-- Float subtraction. -/
def fsub (rnd : ℚ → ℚ) (x y : ℚ) : ℚ := rnd (x - y)

/-- Float multiplication. -/
def fmul (rnd : ℚ → ℚ) (x y : ℚ) : ℚ := rnd (x * y)

/-- Float division. -/
def fdiv (rnd : ℚ → ℚ) (x y : ℚ) : Except Fault ℚ :=
  if y = 0 then .error .div_by_zero else .ok (rnd (x / y))

/-- The function `std::max(a, b)`: `(a < b) ? b : a`. -/
def stdmax (a b : ℚ) : ℚ := if a < b then b else a

/-- The access `v[i]` of a `std::vector<float>`. -/
def vectorAt (v : List ℚ) (i : Nat) : Except Fault ℚ :=
  match v[i]? with
  | some x => .ok x
  | none => .error .out_of_range

/-- The loop `for (short sample : pcm) floatData.push_back(...)` of
`convertPCMToFloat`; `static_cast<float>(sample)` is `rnd sample`. -/
def convertLoop (rnd : ℚ → ℚ) : List Int → List ℚ → Except Fault (List ℚ)
  | [], floatData => .ok floatData
  | sample :: rest, floatData =>
    match fdiv rnd (rnd (sample : ℚ)) 32768 with
    | .error e => .error e
    | .ok q => convertLoop rnd rest (floatData ++ [q])

/-- The function `AudioProcessor::convertPCMToFloat`. -/
def convertPCMToFloat (rnd : ℚ → ℚ) (pcm : List Int) : Except Fault (List ℚ) :=
  convertLoop rnd pcm []

/-- The loop `for (size_t i = 1; i < audio.size(); ++i)` of `applyPreemphasis`. -/
def preemphasisLoop (rnd : ℚ → ℚ) (audio : List ℚ) (alpha : ℚ) :
    Nat → Nat → List ℚ → Except Fault (List ℚ)
  | 0, _, _ => .error .no_fuel
  | fuel + 1, i, result =>
    if i < audio.length then
      match vectorAt audio i, vectorAt audio (i - 1) with
      | .ok cur, .ok prev =>
        preemphasisLoop rnd audio alpha fuel (i + 1) (result ++ [fsub rnd cur (fmul rnd alpha prev)])
      | .error e, _ => .error e
      | _, .error e => .error e
    else .ok result

/-- The function `AudioProcessor::applyPreemphasis`. -/
def applyPreemphasis (rnd : ℚ → ℚ) (audio : List ℚ) (alpha : ℚ) : Except Fault (List ℚ) :=
  if audio.isEmpty then .ok audio
  else
    match vectorAt audio 0 with
    | .error e => .error e
    | .ok first => preemphasisLoop rnd audio alpha audio.length 1 [first]

/-- The loop `for (float sample : audio) maxVal = std::max(maxVal, std::abs(sample));`
of `normalizeAudio`. -/
def peakLoop : List ℚ → ℚ → ℚ
  | [], maxVal => maxVal
  | sample :: rest, maxVal => peakLoop rest (stdmax maxVal |sample|)

/-- The loop `for (float sample : audio) normalized.push_back(sample / maxVal);`
of `normalizeAudio`. -/
def divideLoop (rnd : ℚ → ℚ) (maxVal : ℚ) : List ℚ → List ℚ → Except Fault (List ℚ)
  | [], normalized => .ok normalized
  | sample :: rest, normalized =>
    match fdiv rnd sample maxVal with
    | .error e => .error e
    | .ok q => divideLoop rnd maxVal rest (normalized ++ [q])

/-- The function `AudioProcessor::normalizeAudio`. -/
def normalizeAudio (rnd : ℚ → ℚ) (audio : List ℚ) : Except Fault (List ℚ) :=
  if audio.isEmpty then .ok audio
  else
    let maxVal := peakLoop audio 0
    if maxVal = 0 then .ok audio
    else divideLoop rnd maxVal audio []

/-- The loop `for (float sample : audio) energy += sample * sample;` of
`detectVoiceActivity`. -/
def energyLoop (rnd : ℚ → ℚ) : List ℚ → ℚ → ℚ
  | [], energy => energy
  | sample :: rest, energy => energyLoop rnd rest (fadd rnd energy (fmul rnd sample sample))

/-- The function `AudioProcessor::detectVoiceActivity`; in `energy /= audio.size()`
the size is converted to `float`. -/
def detectVoiceActivity (rnd : ℚ → ℚ) (audio : List ℚ) (threshold : ℚ) : Except Fault Bool :=
  if audio.isEmpty then .ok false
  else
    match fdiv rnd (energyLoop rnd audio 0) (rnd (audio.length : ℚ)) with
    | .error e => .error e
    | .ok energy => .ok (decide (threshold < energy))

/-- The default argument `threshold = 0.02f`. -/
def defaultThreshold (rnd : ℚ → ℚ) : ℚ := rnd (2 / 100)

/-- The default argument `alpha = 0.97f`. -/
def defaultAlpha (rnd : ℚ → ℚ) : ℚ := rnd (97 / 100)

/-- The values of the IEEE 754 binary32 format: `m * 2 ^ e` with a 24-bit
significand `m` and an exponent `e` between `-149` and `104`. -/
def binary32 (q : ℚ) : Prop :=
  ∃ m e : ℤ, |m| < 2 ^ 24 ∧ -149 ≤ e ∧ e ≤ 104 ∧ q = m * (2 : ℚ) ^ e

/-! ## Rounding to binary32

The rounding of the `float` operations of the target: to the nearest value of
the format, ties to the even significand.  A result beyond the largest finite
value is not replaced by an infinity. -/

/-- The nearest integer, ties to the even one. -/
def roundHalfEven (m : ℚ) : ℤ :=
  if m - ⌊m⌋ < 1 / 2 then ⌊m⌋
  else if 1 / 2 < m - ⌊m⌋ then ⌊m⌋ + 1
  else if ⌊m⌋ % 2 = 0 then ⌊m⌋ else ⌊m⌋ + 1

/-- The exponent of the unit in the last place of the binary32 values next to
`q`: 24 significant bits, and `-149` in the subnormal range. -/
def ulpExponent (q : ℚ) : ℤ := max (Int.log 2 |q| - 23) (-149)

/-- Round-to-nearest-even into binary32. -/
def binary32Round (q : ℚ) : ℚ :=
  roundHalfEven (q / 2 ^ ulpExponent q) * 2 ^ ulpExponent q

/-! ## `normalizeAudio` on every value of `float`

The JNI entry hands the samples of a Java `float[]` to `normalizeAudio` as they
are, NaN and the infinities included.  `Float32` adds these values to the
rationals; the operations on them are those of IEEE 754.  The sign of zero is not
represented (a zero divisor counts as `+0`), and a finite quotient is not
replaced by an infinity when it overflows. -/

/-- A value of `float`. -/
inductive Float32 where
  | finite (q : ℚ)
  | pinf
  | ninf
  | nan
  deriving DecidableEq

/-- The function `std::abs` on `float`. -/
def Float32.stdabs : Float32 → Float32
  | .finite q => .finite |q|
  | .pinf => .pinf
  | .ninf => .pinf
  | .nan => .nan

/-- The comparison `a < b` on `float`; it is false when an operand is NaN. -/
def Float32.less : Float32 → Float32 → Bool
  | .finite a, .finite b => decide (a < b)
  | .finite _, .pinf => true
  | .ninf, .finite _ => true
  | .ninf, .pinf => true
  | _, _ => false

/-- The function `std::max(a, b)`: `(a < b) ? b : a`. -/
def Float32.stdmax (a b : Float32) : Float32 := if Float32.less a b then b else a

/-- The comparison `x == 0.0f`. -/
def Float32.isZero : Float32 → Bool
  | .finite q => decide (q = 0)
  | _ => false

/-- The division `x / y` on `float`. -/
def Float32.fdiv (rnd : ℚ → ℚ) : Float32 → Float32 → Float32
  | .nan, _ => .nan
  | _, .nan => .nan
  | .finite x, .finite y =>
    if y = 0 then (if x = 0 then .nan else if 0 < x then .pinf else .ninf)
    else .finite (rnd (x / y))
  | .finite _, .pinf => .finite 0
  | .finite _, .ninf => .finite 0
  | .pinf, .finite y => if y < 0 then .ninf else .pinf
  | .ninf, .finite y => if y < 0 then .pinf else .ninf
  | .pinf, .pinf => .nan
  | .pinf, .ninf => .nan
  | .ninf, .pinf => .nan
  | .ninf, .ninf => .nan

/-- The loop `for (float sample : audio) maxVal = std::max(maxVal, std::abs(sample));`
of `normalizeAudio`. -/
def Float32.peakLoop : List Float32 → Float32 → Float32
  | [], maxVal => maxVal
  | sample :: rest, maxVal =>
    Float32.peakLoop rest (Float32.stdmax maxVal (Float32.stdabs sample))

/-- The loop `for (float sample : audio) normalized.push_back(sample / maxVal);`
of `normalizeAudio`. -/
def Float32.divideLoop (rnd : ℚ → ℚ) (maxVal : Float32) :
    List Float32 → List Float32 → List Float32
  | [], normalized => normalized
  | sample :: rest, normalized =>
    Float32.divideLoop rnd maxVal rest (normalized ++ [Float32.fdiv rnd sample maxVal])

/-- The function `AudioProcessor::normalizeAudio` on every value of `float`. -/
def Float32.normalizeAudio (rnd : ℚ → ℚ) (audio : List Float32) : List Float32 :=
  if audio.isEmpty then audio
  else
    let maxVal := Float32.peakLoop audio (.finite 0)
    if Float32.isZero maxVal then audio
    else Float32.divideLoop rnd maxVal audio []

/-! ## `VoiceBridge`, the engine session

The speech engine and the language-model engine are external.  Their answers
are the fields of an `Engine`, functions of an engine state of an arbitrary
type `σ`; the two getters of the speech engine read that state and leave it
unchanged.  A pointer is `none` when it is null.  Every call into an engine is
recorded, in order, in the `calls` of the `World`.  The macros
`WHISPER_AVAILABLE` and `LLAMA_AVAILABLE` are the two fields of `Build`; the
logging macros `LOGI` and `LOGE` are left out. -/

/-- A non-null pointer returned by an engine. -/
abbrev Handle := Nat

/-- The build configuration. -/
structure Build where
  whisper_available : Bool
  llama_available : Bool
  deriving DecidableEq, Repr

/-- The calls that `voicebridge.cpp` makes into the engines. -/
inductive EngineCall where
  | whisper_init_from_file (path : CppString)
  | whisper_full_default_params
  | whisper_full (ctx : Handle) (audio : List ℚ)
  | whisper_full_n_segments (ctx : Handle)
  | whisper_full_get_segment_text (ctx : Handle) (i : Int)
  | whisper_free (ctx : Handle)
  | llama_backend_init
  | llama_model_default_params
  | llama_load_model_from_file (path : CppString)
  | llama_context_default_params
  | llama_new_context_with_model (model : Handle) (n_ctx n_threads : Nat)
  | llama_free (ctx : Handle)
  | llama_backend_free
  deriving DecidableEq

/-- The answers of the engines. -/
structure Engine (σ : Type) where
  whisper_init_from_file : CppString → σ → Option Handle × σ
  whisper_full : Handle → List ℚ → σ → Int × σ
  whisper_full_n_segments : Handle → σ → Int
  whisper_full_get_segment_text : Handle → Int → σ → CppString
  whisper_free : Handle → σ → σ
  llama_backend_init : σ → σ
  llama_load_model_from_file : CppString → σ → Option Handle × σ
  llama_new_context_with_model : Handle → Nat → Nat → σ → Option Handle × σ
  llama_free : Handle → σ → σ
  llama_backend_free : σ → σ

/-- The state of the engines and the calls made so far. -/
structure World (σ : Type) where
  engine : σ
  calls : List EngineCall
  deriving DecidableEq

/-- The members of `class VoiceBridge`; both are initialised to `nullptr`. -/
structure Session where
  whisper_ctx : Option Handle
  llama_ctx : Option Handle
  deriving DecidableEq, Repr

/-- The object built by `new VoiceBridge()`. -/
def Session.fresh : Session := ⟨none, none⟩

/-- The member function `VoiceBridge::initializeWhisper`. -/
def initializeWhisper {σ : Type} (cfg : Build) (E : Engine σ) (modelPath : CppString)
    (self : Session) (wd : World σ) : Bool × Session × World σ :=
  if cfg.whisper_available then
    -- whisper_ctx = whisper_init_from_file(modelPath.c_str());
    let r := E.whisper_init_from_file modelPath wd.engine
    let wd1 : World σ := ⟨r.2, wd.calls ++ [.whisper_init_from_file modelPath]⟩
    let self1 : Session := { self with whisper_ctx := r.1 }
    match self1.whisper_ctx with
    | none => (false, self1, wd1)
    | some _ => (true, self1, wd1)
  else (false, self, wd)

/-- The member function `VoiceBridge::initializeLLaMA`. -/
def initializeLLaMA {σ : Type} (cfg : Build) (E : Engine σ) (modelPath : CppString)
    (self : Session) (wd : World σ) : Bool × Session × World σ :=
  if cfg.llama_available then
    let e1 := E.llama_backend_init wd.engine
    let r := E.llama_load_model_from_file modelPath e1
    let wd1 : World σ := ⟨r.2, wd.calls ++
      [.llama_backend_init, .llama_model_default_params, .llama_load_model_from_file modelPath]⟩
    match r.1 with
    | none => (false, self, wd1)
    | some model =>
      -- ctx_params.n_ctx = 2048; ctx_params.n_threads = 4;
      let r2 := E.llama_new_context_with_model model 2048 4 wd1.engine
      let wd2 : World σ := ⟨r2.2, wd1.calls ++
        [.llama_context_default_params, .llama_new_context_with_model model 2048 4]⟩
      let self1 : Session := { self with llama_ctx := r2.1 }
      match self1.llama_ctx with
      | none => (false, self1, wd2)
      | some _ => (true, self1, wd2)
  else (false, self, wd)

/-- The loop `for (int i = 0; i < n_segments; ++i) result += text;` of
`transcribeAudio`. -/
def segmentLoop {σ : Type} (E : Engine σ) (ctx : Handle) (n_segments : Int) :
    Nat → Int → CppString → World σ → Except Fault (CppString × World σ)
  | 0, _, _, _ => .error .no_fuel
  | fuel + 1, i, result, wd =>
    if i < n_segments then
      let text := E.whisper_full_get_segment_text ctx i wd.engine
      segmentLoop E ctx n_segments fuel (i + 1) (result ++ text)
        ⟨wd.engine, wd.calls ++ [.whisper_full_get_segment_text ctx i]⟩
    else .ok (result, wd)

/-- The member function `VoiceBridge::transcribeAudio`. -/
def transcribeAudio {σ : Type} (cfg : Build) (E : Engine σ) (audio : List ℚ)
    (self : Session) (wd : World σ) : Except Fault (CppString × Session × World σ) :=
  if cfg.whisper_available then
    match self.whisper_ctx with
    | none => .ok ([], self, wd)
    | some ctx =>
      let r := E.whisper_full ctx audio wd.engine
      let wd1 : World σ := ⟨r.2, wd.calls ++ [.whisper_full_default_params, .whisper_full ctx audio]⟩
      if r.1 ≠ 0 then .ok ([], self, wd1)
      else
        let n_segments := E.whisper_full_n_segments ctx wd1.engine
        let wd2 : World σ := ⟨wd1.engine, wd1.calls ++ [.whisper_full_n_segments ctx]⟩
        match segmentLoop E ctx n_segments (n_segments.toNat + 1) 0 [] wd2 with
        | .error e => .error e
        | .ok (result, wd3) => .ok (result, self, wd3)
  else .ok ([], self, wd)

/-- The member function `VoiceBridge::processText`. -/
def processText {σ : Type} (cfg : Build) (input : CppString)
    (self : Session) (wd : World σ) : CppString × Session × World σ :=
  if cfg.llama_available then
    match self.llama_ctx with
    | none => ([], self, wd)
    | some _ => ("Processed: ".toList ++ input, self, wd)
  else ([], self, wd)

/-- The destructor `VoiceBridge::~VoiceBridge`, the teardown of the session.  It
assigns to no member. -/
def destructor {σ : Type} (cfg : Build) (E : Engine σ) (self : Session) (wd : World σ) :
    Session × World σ :=
  let wd1 : World σ :=
    if cfg.whisper_available then
      match self.whisper_ctx with
      | some ctx => ⟨E.whisper_free ctx wd.engine, wd.calls ++ [.whisper_free ctx]⟩
      | none => wd
    else wd
  let wd2 : World σ :=
    if cfg.llama_available then
      let wd1a : World σ :=
        match self.llama_ctx with
        | some ctx => ⟨E.llama_free ctx wd1.engine, wd1.calls ++ [.llama_free ctx]⟩
        | none => wd1
      ⟨E.llama_backend_free wd1a.engine, wd1a.calls ++ [.llama_backend_free]⟩
    else wd1
  (self, wd2)

/-- The JNI entry `Java_com_voicebridge_VoiceBridgeNative_initializeWhisper`; the
first argument is the global `g_voicebridge`. -/
def Java_com_voicebridge_VoiceBridgeNative_initializeWhisper {σ : Type} (cfg : Build)
    (E : Engine σ) (g_voicebridge : Option Session) (model_path : CppString) (wd : World σ) :
    Bool × Option Session × World σ :=
  let self := match g_voicebridge with
    | none => Session.fresh
    | some s => s
  let r := initializeWhisper cfg E model_path self wd
  (r.1, some r.2.1, r.2.2)

/-- The JNI entry `Java_com_voicebridge_VoiceBridgeNative_initializeLLaMA`. -/
def Java_com_voicebridge_VoiceBridgeNative_initializeLLaMA {σ : Type} (cfg : Build)
    (E : Engine σ) (g_voicebridge : Option Session) (model_path : CppString) (wd : World σ) :
    Bool × Option Session × World σ :=
  let self := match g_voicebridge with
    | none => Session.fresh
    | some s => s
  let r := initializeLLaMA cfg E model_path self wd
  (r.1, some r.2.1, r.2.2)

/-- The JNI entry `Java_com_voicebridge_VoiceBridgeNative_transcribeAudio`. -/
def Java_com_voicebridge_VoiceBridgeNative_transcribeAudio {σ : Type} (cfg : Build)
    (E : Engine σ) (g_voicebridge : Option Session) (audio_data : List ℚ) (wd : World σ) :
    Except Fault (CppString × Option Session × World σ) :=
  match g_voicebridge with
  | none => .ok ([], none, wd)
  | some self =>
    match transcribeAudio cfg E audio_data self wd with
    | .error e => .error e
    | .ok (result, self1, wd1) => .ok (result, some self1, wd1)

/-- The JNI entry `Java_com_voicebridge_VoiceBridgeNative_processText`. -/
def Java_com_voicebridge_VoiceBridgeNative_processText {σ : Type} (cfg : Build)
    (g_voicebridge : Option Session) (input_text : CppString) (wd : World σ) :
    CppString × Option Session × World σ :=
  match g_voicebridge with
  | none => ([], none, wd)
  | some self =>
    let r := processText cfg input_text self wd
    (r.1, some r.2.1, r.2.2)

/-- An engine without state in which every load fails and every run succeeds
with no segment. -/
def idleEngine : Engine Unit where
  whisper_init_from_file := fun _ _ => (none, ())
  whisper_full := fun _ _ _ => (0, ())
  whisper_full_n_segments := fun _ _ => 0
  whisper_full_get_segment_text := fun _ _ _ => []
  whisper_free := fun _ _ => ()
  llama_backend_init := fun _ => ()
  llama_load_model_from_file := fun _ _ => (none, ())
  llama_new_context_with_model := fun _ _ _ _ => (none, ())
  llama_free := fun _ _ => ()
  llama_backend_free := fun _ => ()

/-! ## Reference definitions, written from the specification -/

/-- Split a string at every space character; the pieces may be empty. -/
def splitOnSpace : CppString → List CppString
  | [] => [[]]
  | c :: cs =>
    if c = ' ' then [] :: splitOnSpace cs
    else
      match splitOnSpace cs with
      | [] => [[c]]
      | piece :: pieces => (c :: piece) :: pieces

/-- Reference for `cleanText`: delete the whitespace characters other than the
space, split on the space, drop the empty pieces, join with one space. -/
def cleanTextRef (s : CppString) : CppString :=
  List.intercalate [' ']
    ((splitOnSpace (s.filter (fun c => !(isspace c && c != ' ')))).filter (fun p => !p.isEmpty))

/-- Split a string at every whitespace character; the pieces may be empty. -/
def splitOnWhitespace : CppString → List CppString
  | [] => [[]]
  | c :: cs =>
    if isspace c then [] :: splitOnWhitespace cs
    else
      match splitOnWhitespace cs with
      | [] => [[c]]
      | piece :: pieces => (c :: piece) :: pieces

/-- The whitespace-delimited tokens of a string, in order of appearance. -/
def tokens (text : CppString) : List CppString :=
  (splitOnWhitespace text).filter (fun p => !p.isEmpty)

/-- Reference for `extractCommands`: the tokens whose lower-cased form is an
action word, unchanged and in order. -/
def extractCommandsRef (text : CppString) : List CppString :=
  (tokens text).filter (fun t => decide (t.map tolower ∈ actionWords))

/-- Result of the collapsing loop: every run of spaces is reduced to one space. -/
def squeeze : CppString → CppString
  | [] => []
  | [c] => [c]
  | c :: d :: r => if c = ' ' ∧ d = ' ' then squeeze (d :: r) else c :: squeeze (d :: r)

/-- The pure value computed by `cleanText`. -/
def cleanTextVal (s : CppString) : CppString :=
  ((squeeze (s.filter (fun c => !(isspace c && c != ' ')))).dropWhile (· == ' ')).rdropWhile
    (· == ' ')

/-- Every piece preceded by one space. -/
def sepjoin : List CppString → CppString
  | [] => []
  | x :: xs => ' ' :: x ++ sepjoin xs

/-- The first piece followed by the non-empty later pieces, each after one space. -/
def joinPieces : List CppString → CppString
  | [] => []
  | p :: ps => p ++ sepjoin (ps.filter (fun p => !p.isEmpty))

/-- A string in the form that `cleanText` produces: no two adjacent spaces, no
space at either end, no whitespace other than the space. -/
def Clean (l : CppString) : Prop :=
  List.Chain' (fun a b => ¬ (a = ' ' ∧ b = ' ')) l ∧ l.head? ≠ some ' ' ∧
    l.getLast? ≠ some ' ' ∧ ∀ c ∈ l, isspace c = true → c = ' '

/-- Two characters of which both or neither are the space, and both or neither are
whitespace. -/
def SameShape (a b : Char) : Prop :=
  (a = ' ' ↔ b = ' ') ∧ isspace a = isspace b

/-- The text that the "phone" branch of `formatForForm` builds from ten digits. -/
def phoneFormat (d : CppString) : CppString :=
  ['('] ++ d.take 3 ++ [')', ' '] ++ (d.drop 3).take 3 ++ ['-'] ++ (d.drop 6).take 4

/-! ## Properties of the `std::string` members -/

theorem npos_succ_mod (w : Nat) : (npos w + 1) % 2 ^ w = 0 := by
  have h : 0 < 2 ^ w := Nat.pow_pos (by decide)
  have : npos w + 1 = 2 ^ w := by unfold npos; omega
  rw [this, Nat.mod_self]

theorem squeeze_cons_ne {c : Char} (h : c ≠ ' ') (l : CppString) :
    squeeze (c :: l) = c :: squeeze l := by
  cases l with
  | nil => rfl
  | cons d r => simp [squeeze, h]

theorem findFrom_spec (w : Nat) (l : CppString) :
    ∀ i, i + l.length < npos w →
      (findFrom w [' ', ' '] l i = npos w ∧ squeeze l = l) ∨
      (∃ a b, l = a ++ ' ' :: ' ' :: b ∧ findFrom w [' ', ' '] l i = i + a.length ∧
        squeeze l = a ++ squeeze (' ' :: b)) := by
  induction l with
  | nil => intro i _; left; simp [findFrom, squeeze]
  | cons c cs ih =>
    intro i hi
    simp only [List.length_cons] at hi
    by_cases hp : List.isPrefixOf [' ', ' '] (c :: cs) = true
    · right
      cases cs with
      | nil => simp [List.isPrefixOf] at hp
      | cons d r =>
        simp [List.isPrefixOf] at hp
        obtain ⟨rfl, rfl⟩ := hp
        exact ⟨[], r, rfl, by simp [findFrom, List.isPrefixOf], by simp [squeeze]⟩
    · have hstep : findFrom w [' ', ' '] (c :: cs) i = findFrom w [' ', ' '] cs (i + 1) := by
        simp [findFrom, hp]
      have hsq : squeeze (c :: cs) = c :: squeeze cs := by
        cases cs with
        | nil => rfl
        | cons d r =>
          have : ¬ (c = ' ' ∧ d = ' ') := by
            intro h; apply hp; simp [List.isPrefixOf, h.1, h.2]
          simp [squeeze, this]
      rcases ih (i + 1) (by omega) with ⟨h1, h2⟩ | ⟨a, b, h1, h2, h3⟩
      · left; exact ⟨by rw [hstep, h1], by rw [hsq, h2]⟩
      · right
        refine ⟨c :: a, b, by simp [h1], ?_, ?_⟩
        · rw [hstep, h2]; simp; omega
        · rw [hsq, h3]; simp

theorem collapseLoop_spec (w : Nat) :
    ∀ (fuel : Nat) (pre l : CppString), (pre ++ l).length < npos w → l.length < fuel →
      collapseLoop w fuel (pre ++ l) pre.length = .ok (pre ++ squeeze l) := by
  intro fuel
  induction fuel with
  | zero => intro pre l _ h; omega
  | succ fuel ih =>
    intro pre l hlen hfuel
    have hfind : find w (pre ++ l) [' ', ' '] pre.length = findFrom w [' ', ' '] l pre.length := by
      simp [find]
    simp only [collapseLoop, hfind]
    rcases findFrom_spec w l pre.length (by simpa using hlen) with ⟨h1, h2⟩ | ⟨a, b, h1, h2, h3⟩
    · simp [h1, h2]
    · have hne : pre.length + a.length ≠ npos w := by
        subst h1; simp at hlen; omega
      have hrep : replace (pre ++ l) (pre.length + a.length) 2 [' ']
          = .ok ((pre ++ a) ++ ' ' :: b) := by
        subst h1
        have e1 : List.take (pre.length + a.length) (pre ++ (a ++ ' ' :: ' ' :: b)) = pre ++ a := by
          rw [← List.append_assoc]
          have : pre.length + a.length = (pre ++ a).length := by simp
          rw [this, List.take_left]
        have e2 : List.drop (pre.length + a.length + 2) (pre ++ (a ++ ' ' :: ' ' :: b)) = b := by
          have : pre ++ (a ++ ' ' :: ' ' :: b) = (pre ++ a ++ [' ', ' ']) ++ b := by simp
          rw [this]
          have : pre.length + a.length + 2 = (pre ++ a ++ [' ', ' ']).length := by
            simp [Nat.add_assoc]
          rw [this, List.drop_left]
        have e3 : min 2 ((pre ++ (a ++ ' ' :: ' ' :: b)).length - (pre.length + a.length)) = 2 := by
          simp; omega
        simp only [replace, e3, e1, e2]
        simp
      rw [h2, if_neg hne, hrep]
      have hrec := ih (pre ++ a) (' ' :: b) (by subst h1; simp at hlen ⊢; omega)
        (by subst h1; simp at hfuel ⊢; omega)
      simp only [List.length_append] at hrec
      simp only [hrec, h3]; simp

theorem firstNotOfFrom_spec (w : Nat) (ch : Char) (l : CppString) :
    ∀ i, i + l.length < npos w →
      (firstNotOfFrom w ch l i = npos w ∧ l.dropWhile (· == ch) = []) ∨
      (∃ k, firstNotOfFrom w ch l i = i + k ∧ k < l.length ∧
        l.drop k = l.dropWhile (· == ch)) := by
  induction l with
  | nil => intro i _; left; simp [firstNotOfFrom]
  | cons c cs ih =>
    intro i hi
    simp only [List.length_cons] at hi
    by_cases hc : c = ch
    · subst hc
      have hstep : firstNotOfFrom w c (c :: cs) i = firstNotOfFrom w c cs (i + 1) := by
        simp [firstNotOfFrom]
      rcases ih (i + 1) (by omega) with ⟨h1, h2⟩ | ⟨k, h1, h2, h3⟩
      · left; exact ⟨by rw [hstep, h1], by simpa using h2⟩
      · right
        refine ⟨k + 1, by rw [hstep, h1]; omega, by simp; omega, ?_⟩
        simpa using h3
    · right
      exact ⟨0, by simp [firstNotOfFrom, hc], by simp, by simp [hc]⟩

theorem erase_first_spec (w : Nat) (r : CppString) (h : r.length < npos w) :
    erase r 0 (find_first_not_of w r ' ') = .ok (r.dropWhile (· == ' ')) := by
  unfold find_first_not_of
  rcases firstNotOfFrom_spec w ' ' r 0 (by omega) with ⟨h1, h2⟩ | ⟨k, h1, h2, h3⟩
  · rw [h1, h2]
    have e : 0 + min (npos w) (r.length - 0) = r.length := by
      rw [Nat.min_def]; split <;> omega
    simp only [erase, e]
    simp
  · rw [h1, ← h3]
    have e : 0 + min (0 + k) (r.length - 0) = k := by
      rw [Nat.min_def]; split <;> omega
    simp only [erase, e]
    simp

theorem erase_last_spec (w : Nat) (r : CppString) (h : r.length < npos w) :
    erase r ((find_last_not_of w r ' ' + 1) % 2 ^ w) (npos w)
      = .ok (r.rdropWhile (· == ' ')) := by
  have hpow : npos w + 1 = 2 ^ w := by
    have : 0 < 2 ^ w := Nat.pow_pos (by decide)
    unfold npos; omega
  unfold find_last_not_of List.rdropWhile
  rcases firstNotOfFrom_spec w ' ' r.reverse 0 (by simpa using h) with
    ⟨h1, h2⟩ | ⟨k, h1, h2, h3⟩
  · rw [if_pos h1, npos_succ_mod, h2]
    have e : 0 + min (npos w) (r.length - 0) = r.length := by
      rw [Nat.min_def]; split <;> omega
    simp only [erase, e]
    simp
  · simp only [List.length_reverse] at h2
    have hne : firstNotOfFrom w ' ' r.reverse 0 ≠ npos w := by rw [h1]; omega
    rw [if_neg hne, h1, ← h3]
    have e1 : (r.length - 1 - (0 + k) + 1) % 2 ^ w = r.length - k := by
      rw [Nat.mod_eq_of_lt (by omega)]; omega
    have e2 : min (npos w) (r.length - (r.length - k)) = k := by
      rw [Nat.min_def]; split <;> omega
    have e3 : r.length - k + k = r.length := by omega
    have e4 : ¬ r.length < r.length - k := by omega
    rw [e1]
    simp only [erase, e2, e3, e4, if_false, List.drop_length, List.append_nil]
    rw [List.reverse_drop]
    simp

theorem squeeze_length_le (l : CppString) : (squeeze l).length ≤ l.length := by
  induction l with
  | nil => simp [squeeze]
  | cons c cs ih =>
    cases cs with
    | nil => simp [squeeze]
    | cons d r =>
      simp only [squeeze]
      split
      · simp only [List.length_cons] at ih ⊢; omega
      · simp only [List.length_cons] at ih ⊢; omega

theorem cleanSteps_spec (w : Nat) (r0 : CppString) (h : r0.length < npos w) :
    (match collapseLoop w (r0.length + 1) r0 0 with
      | Except.error e => Except.error e
      | Except.ok result1 =>
        match erase result1 0 (find_first_not_of w result1 ' ') with
        | Except.error e => Except.error e
        | Except.ok result2 =>
          erase result2 ((find_last_not_of w result2 ' ' + 1) % 2 ^ w) (npos w))
      = Except.ok (((squeeze r0).dropWhile (· == ' ')).rdropWhile (· == ' ')) := by
  have h0 := collapseLoop_spec w (r0.length + 1) [] r0 (by simpa using h) (by omega)
  simp only [List.nil_append, List.length_nil] at h0
  have hsq := squeeze_length_le r0
  have hdw : ((squeeze r0).dropWhile (· == ' ')).length ≤ (squeeze r0).length :=
    (List.dropWhile_sublist _).length_le
  simp only [h0]
  rw [erase_first_spec w _ (by omega)]
  simp only []
  rw [erase_last_spec w _ (by omega)]

/-- On every string that fits in memory `cleanText` returns, and its value is
`cleanTextVal`. -/
theorem cleanText_eq_val (w : Nat) (s : CppString) (h : s.length < npos w) :
    cleanText w s = .ok (cleanTextVal s) := by
  have hf : (s.filter (fun c => !(isspace c && c != ' '))).length ≤ s.length :=
    List.length_filter_le _ _
  exact cleanSteps_spec w (s.filter (fun c => !(isspace c && c != ' '))) (by omega)

/-! ## `cleanText` against its reference -/

theorem intercalate_cons_sepjoin (x : CppString) (xs : List CppString) :
    List.intercalate [' '] (x :: xs) = x ++ sepjoin xs := by
  induction xs generalizing x with
  | nil => simp [List.intercalate, sepjoin]
  | cons y ys ih =>
    have := ih y
    simp only [List.intercalate, List.intersperse, sepjoin] at this ⊢
    simp only [List.flatten, List.cons_append, List.nil_append] at this ⊢
    rw [this]

theorem splitOnSpace_cons_space (r : CppString) :
    splitOnSpace (' ' :: r) = [] :: splitOnSpace r := by
  simp [splitOnSpace]

theorem splitOnSpace_exists (r : CppString) : ∃ p ps, splitOnSpace r = p :: ps := by
  induction r with
  | nil => exact ⟨[], [], rfl⟩
  | cons c cs ih =>
    obtain ⟨p, ps, h⟩ := ih
    by_cases hc : c = ' '
    · exact ⟨[], splitOnSpace cs, by simp [splitOnSpace, hc]⟩
    · exact ⟨c :: p, ps, by simp [splitOnSpace, hc, h]⟩

theorem splitOnSpace_cons_ne {c : Char} (hc : c ≠ ' ') {r p : CppString} {ps : List CppString}
    (h : splitOnSpace r = p :: ps) : splitOnSpace (c :: r) = (c :: p) :: ps := by
  simp [splitOnSpace, hc, h]

theorem rdropWhile_cons (p : Char → Bool) (c : Char) (l : CppString) :
    (c :: l).rdropWhile p = if l.rdropWhile p = [] ∧ p c = true then [] else c :: l.rdropWhile p := by
  unfold List.rdropWhile
  rw [List.reverse_cons, List.dropWhile_append]
  by_cases h : List.dropWhile p l.reverse = []
  · by_cases hc : p c = true <;> simp [h, hc]
  · have h2 : (List.dropWhile p l.reverse).isEmpty = false := by
      cases hd : List.dropWhile p l.reverse with
      | nil => exact absurd hd h
      | cons _ _ => rfl
    simp [h, h2]

theorem trim_squeeze (r : CppString) :
    (squeeze r).rdropWhile (· == ' ') = joinPieces (splitOnSpace r) := by
  induction r with
  | nil => simp [squeeze, splitOnSpace, joinPieces, sepjoin]
  | cons c cs ih =>
    obtain ⟨p, ps, hps⟩ := splitOnSpace_exists cs
    by_cases hc : c = ' '
    · subst hc
      rw [splitOnSpace_cons_space]
      cases cs with
      | nil => simp [squeeze, splitOnSpace, joinPieces, sepjoin, List.rdropWhile]
      | cons d r =>
        by_cases hd : d = ' '
        · subst hd
          have : squeeze (' ' :: ' ' :: r) = squeeze (' ' :: r) := by simp [squeeze]
          rw [this, ih, splitOnSpace_cons_space]
          simp [joinPieces]
        · have hsq : squeeze (' ' :: d :: r) = ' ' :: squeeze (d :: r) := by simp [squeeze, hd]
          obtain ⟨q, qs, hqs⟩ := splitOnSpace_exists r
          have hne : (squeeze (d :: r)).rdropWhile (· == ' ') ≠ [] := by
            rw [ih, splitOnSpace_cons_ne hd hqs]; simp [joinPieces]
          rw [hsq, rdropWhile_cons, if_neg (fun h => hne h.1), ih, splitOnSpace_cons_ne hd hqs]
          simp [joinPieces, sepjoin]
    · rw [squeeze_cons_ne hc, rdropWhile_cons, splitOnSpace_cons_ne hc hps, ih, hps]
      have : ¬ ((c == ' ') = true) := by simpa using hc
      simp [joinPieces, this]

theorem dropWhile_squeeze_space (r : CppString) :
    (squeeze (' ' :: r)).dropWhile (· == ' ') = (squeeze r).dropWhile (· == ' ') := by
  cases r with
  | nil => simp [squeeze]
  | cons d r =>
    by_cases hd : d = ' '
    · subst hd; simp [squeeze]
    · simp [squeeze, hd]

theorem cleanSteps_eq_ref (r : CppString) :
    ((squeeze r).dropWhile (· == ' ')).rdropWhile (· == ' ')
      = List.intercalate [' '] ((splitOnSpace r).filter (fun p => !p.isEmpty)) := by
  induction r with
  | nil => simp [squeeze, splitOnSpace, List.rdropWhile, List.intercalate]
  | cons c cs ih =>
    by_cases hc : c = ' '
    · subst hc
      rw [dropWhile_squeeze_space, ih, splitOnSpace_cons_space]
      simp
    · obtain ⟨p, ps, hps⟩ := splitOnSpace_exists cs
      have hd : (squeeze (c :: cs)).dropWhile (· == ' ') = squeeze (c :: cs) := by
        rw [squeeze_cons_ne hc]; simp [hc]
      rw [hd, trim_squeeze, splitOnSpace_cons_ne hc hps]
      simp [joinPieces, intercalate_cons_sepjoin]

theorem cleanTextVal_eq_ref (s : CppString) : cleanTextVal s = cleanTextRef s :=
  cleanSteps_eq_ref _

theorem squeeze_head (d : Char) (r : CppString) : (squeeze (d :: r)).head? = some d := by
  induction r generalizing d with
  | nil => rfl
  | cons e r ih =>
    by_cases h : d = ' ' ∧ e = ' '
    · simp only [squeeze, if_pos h]; rw [ih, h.1, h.2]
    · simp [squeeze, h]

theorem squeeze_chain (l : CppString) :
    List.Chain' (fun a b => ¬ (a = ' ' ∧ b = ' ')) (squeeze l) := by
  induction l with
  | nil => simp [squeeze]
  | cons c cs ih =>
    cases cs with
    | nil => simp [squeeze]
    | cons d r =>
      by_cases h : c = ' ' ∧ d = ' '
      · simpa [squeeze, h] using ih
      · simp only [squeeze, if_neg h]
        refine List.Chain'.cons' ih ?_
        intro y hy
        rw [squeeze_head] at hy
        cases hy
        exact h

theorem squeeze_sublist (l : CppString) : (squeeze l).Sublist l := by
  induction l with
  | nil => simp [squeeze]
  | cons c cs ih =>
    cases cs with
    | nil => simp [squeeze]
    | cons d r =>
      by_cases h : c = ' ' ∧ d = ' '
      · simp only [squeeze, if_pos h]; exact ih.trans (List.sublist_cons_self _ _)
      · simp only [squeeze, if_neg h]; exact ih.cons₂ _

theorem cleanTextVal_sublist (s : CppString) :
    (cleanTextVal s).Sublist (s.filter (fun c => !(isspace c && c != ' '))) :=
  (List.Sublist.trans (List.IsPrefix.sublist ( List.rdropWhile_prefix _ _)) (List.dropWhile_sublist _)).trans
    (squeeze_sublist _)

theorem cleanTextVal_no_double_space (s : CppString) :
    ¬ List.IsInfix [' ', ' '] (cleanTextVal s) := by
  intro hin
  have h1 : List.Chain' (fun a b => ¬ (a = ' ' ∧ b = ' ')) (cleanTextVal s) :=
    List.Chain'.prefix ((squeeze_chain _).suffix (List.dropWhile_suffix _))
      ( List.rdropWhile_prefix _ _)
  have h2 := h1.infix hin
  simp at h2

theorem cleanTextVal_head (s : CppString) : (cleanTextVal s).head? ≠ some ' ' := by
  unfold cleanTextVal
  generalize squeeze (s.filter (fun c => !(isspace c && c != ' '))) = l
  intro h
  have hpre : List.IsPrefix ((l.dropWhile (· == ' ')).rdropWhile (· == ' '))
      (l.dropWhile (· == ' ')) := List.rdropWhile_prefix _ _
  cases hx : (l.dropWhile (· == ' ')).rdropWhile (· == ' ') with
  | nil => rw [hx] at h; simp at h
  | cons a as =>
    rw [hx] at h hpre
    simp only [List.head?_cons, Option.some.injEq] at h
    subst h
    obtain ⟨t, ht⟩ := hpre
    have hh := List.head?_dropWhile_not (· == ' ') l
    rw [← ht] at hh
    simp at hh

theorem cleanTextVal_last (s : CppString) : (cleanTextVal s).getLast? ≠ some ' ' := by
  unfold cleanTextVal
  generalize (squeeze (s.filter (fun c => !(isspace c && c != ' ')))).dropWhile (· == ' ') = l
  intro h
  have hne : l.rdropWhile (· == ' ') ≠ [] := by
    intro h0; rw [h0] at h; simp at h
  have := List.rdropWhile_last_not (· == ' ') l hne
  rw [List.getLast?_eq_getLast _ hne] at h
  simp only [Option.some.injEq] at h
  rw [h] at this
  simp at this

theorem cleanTextVal_only_space (s : CppString) :
    ∀ c ∈ cleanTextVal s, isspace c = true → c = ' ' := by
  intro c hc hsp
  have := (cleanTextVal_sublist s).subset hc
  simp only [List.mem_filter] at this
  have h2 := this.2
  simp [hsp] at h2
  exact h2

/-! ## `extractCommands` against its reference -/

theorem tokens_cons_space {c : Char} (hc : isspace c = true) (cs : CppString) :
    tokens (c :: cs) = tokens cs := by
  simp [tokens, splitOnWhitespace, hc]

theorem splitOnWhitespace_spec (cs : CppString) :
    ∃ ps, splitOnWhitespace cs = cs.takeWhile (fun c => !isspace c) :: ps ∧
      ps.filter (fun p => !p.isEmpty) = tokens (cs.dropWhile (fun c => !isspace c)) := by
  induction cs with
  | nil => exact ⟨[], by simp [splitOnWhitespace], by simp [tokens, splitOnWhitespace]⟩
  | cons c cs ih =>
    by_cases hc : isspace c = true
    · refine ⟨splitOnWhitespace cs, by simp [splitOnWhitespace, hc], ?_⟩
      simp [tokens, splitOnWhitespace, hc]
    · obtain ⟨ps, h1, h2⟩ := ih
      refine ⟨ps, by simp [splitOnWhitespace, hc, h1], ?_⟩
      simpa [hc] using h2

theorem readWord_spec (stream : CppString) :
    (readWord stream = none ∧ tokens stream = []) ∨
    (∃ word rest, readWord stream = some (word, rest) ∧ tokens stream = word :: tokens rest ∧
      rest.length < stream.length) := by
  induction stream with
  | nil => left; simp [readWord, tokens, splitOnWhitespace]
  | cons c cs ih =>
    by_cases hc : isspace c = true
    · have hr : readWord (c :: cs) = readWord cs := by simp [readWord, hc]
      rw [hr, tokens_cons_space hc]
      rcases ih with h | ⟨word, rest, h1, h2, h3⟩
      · left; exact h
      · right; exact ⟨word, rest, h1, h2, by simp; omega⟩
    · right
      obtain ⟨ps, h1, h2⟩ := splitOnWhitespace_spec cs
      refine ⟨c :: cs.takeWhile (fun c => !isspace c), cs.dropWhile (fun c => !isspace c),
        by simp [readWord, hc], ?_, ?_⟩
      · simp [tokens, splitOnWhitespace, hc, h1]
        simpa [tokens] using h2
      · have := (List.dropWhile_sublist (fun c => !isspace c) (l := cs)).length_le
        simp; omega

theorem extractLoop_spec :
    ∀ (fuel : Nat) (stream : CppString) (commands : List CppString), stream.length < fuel →
      extractLoop fuel stream commands = .ok (commands ++ extractCommandsRef stream) := by
  intro fuel
  induction fuel with
  | zero => intro stream _ h; omega
  | succ fuel ih =>
    intro stream commands hfuel
    rcases readWord_spec stream with ⟨h1, h2⟩ | ⟨word, rest, h1, h2, h3⟩
    · simp [extractLoop, h1, extractCommandsRef, h2]
    · simp only [extractLoop, h1, extractCommandsRef, h2]
      by_cases hw : List.map tolower word ∈ actionWords
      · rw [if_pos hw, ih rest _ (by omega)]
        simp [List.filter_cons, hw, extractCommandsRef]
      · rw [if_neg hw, ih rest _ (by omega)]
        simp [List.filter_cons, hw, extractCommandsRef]

/-! ## `formatForForm` -/

theorem filter_dropWhile_disjoint (p q : Char → Bool) (hpq : ∀ c, q c = true → p c = false)
    (l : CppString) : (l.dropWhile q).filter p = l.filter p := by
  induction l with
  | nil => rfl
  | cons c cs ih =>
    by_cases hq : q c = true
    · simp [List.dropWhile_cons, hq, ih, List.filter_cons, hpq c hq]
    · simp [List.dropWhile_cons, hq]

theorem filter_rdropWhile_disjoint (p q : Char → Bool) (hpq : ∀ c, q c = true → p c = false)
    (l : CppString) : (l.rdropWhile q).filter p = l.filter p := by
  unfold List.rdropWhile
  rw [List.filter_reverse, filter_dropWhile_disjoint p q hpq, List.filter_reverse,
    List.reverse_reverse]

theorem filter_squeeze (p : Char → Bool) (hp : p ' ' = false) (l : CppString) :
    (squeeze l).filter p = l.filter p := by
  induction l with
  | nil => rfl
  | cons c cs ih =>
    cases cs with
    | nil => rfl
    | cons d r =>
      by_cases h : c = ' ' ∧ d = ' '
      · simp only [squeeze, if_pos h, ih]
        rw [h.1]; simp [List.filter_cons, hp]
      · simp only [squeeze, if_neg h, List.filter_cons, ih]

theorem isdigit_not_isspace (c : Char) (h : isdigit c = true) : isspace c = false := by
  simp only [isdigit, decide_eq_true_eq] at h
  by_contra hs
  simp only [isspace, Bool.not_eq_false, Bool.or_eq_true, beq_iff_eq] at hs
  rcases hs with ((((rfl | rfl) | rfl) | rfl) | rfl) | rfl <;> simp at h

theorem filter_isdigit_cleanTextVal (s : CppString) :
    (cleanTextVal s).filter isdigit = s.filter isdigit := by
  have hsp : ∀ c : Char, (c == ' ') = true → isdigit c = false := by
    intro c hc
    simp only [beq_iff_eq] at hc
    subst hc; decide
  unfold cleanTextVal
  rw [filter_rdropWhile_disjoint isdigit _ hsp, filter_dropWhile_disjoint isdigit _ hsp,
    filter_squeeze isdigit (by decide), List.filter_filter]
  apply List.filter_congr
  intro c _
  by_cases hd : isdigit c = true
  · simp [hd, isdigit_not_isspace c hd]
  · simp [hd]

theorem toupper_of_isspace (c : Char) (h : isspace c = true) : toupper c = c := by
  simp only [isspace, Bool.or_eq_true, beq_iff_eq] at h
  rcases h with ((((rfl | rfl) | rfl) | rfl) | rfl) | rfl <;> decide

theorem capitalizeLoop_length (l : CppString) :
    ∀ flag, (capitalizeLoop flag l).length = l.length := by
  induction l with
  | nil => intro flag; rfl
  | cons c cs ih =>
    intro flag
    simp only [capitalizeLoop]
    split
    · simp [ih]
    · split <;> simp [ih]

theorem capitalizeLoop_getElem? (l : CppString) :
    ∀ (flag : Bool) (i : Nat), (capitalizeLoop flag l)[i]? =
      (l[i]?).map (fun x =>
        if (if i = 0 then flag else isspace (l.getD (i - 1) ' ')) = true then toupper x else x) := by
  induction l with
  | nil => intro flag i; simp [capitalizeLoop]
  | cons c cs ih =>
    intro flag i
    have hstep : capitalizeLoop flag (c :: cs)
        = (if flag = true then toupper c else c) :: capitalizeLoop (isspace c) cs := by
      by_cases hc : isspace c = true
      · by_cases hf : flag = true <;> simp [capitalizeLoop, hc, hf, toupper_of_isspace c hc]
      · by_cases hf : flag = true
        · simp [capitalizeLoop, hc, hf]
        · simp only [Bool.not_eq_true] at hc hf
          simp [capitalizeLoop, hc, hf]
    rw [hstep]
    cases i with
    | zero => simp
    | succ j =>
      simp only [List.getElem?_cons_succ, ih]
      congr 1
      funext x
      cases j with
      | zero => simp
      | succ k => simp

theorem formatForForm_phone_val (w : Nat) (text : CppString) (h : text.length < npos w) :
    formatForForm w text "phone".toList =
      (if (text.filter isdigit).length = 10 then
        match substr (text.filter isdigit) 0 3, substr (text.filter isdigit) 3 3,
            substr (text.filter isdigit) 6 4 with
        | Except.ok a, Except.ok b, Except.ok c =>
          Except.ok (['('] ++ a ++ [')', ' '] ++ b ++ ['-'] ++ c)
        | _, _, _ => Except.error Fault.out_of_range
      else Except.ok (text.filter isdigit)) := by
  have hd : (cleanTextVal text).filter (fun c => !(!isdigit c)) = text.filter isdigit := by
    rw [← filter_isdigit_cleanTextVal text]
    apply List.filter_congr
    intro c _; simp
  simp only [formatForForm, cleanText_eq_val w text h, if_pos, hd]

/-! ## The examples of the specification, evaluated on the embedding -/

theorem cleanText_examples :
    cleanText 64 "  hello   world  ".toList = .ok "hello world".toList ∧
    cleanText 64 "a\tb\nc".toList = .ok "abc".toList ∧
    cleanText 64 "".toList = .ok "".toList ∧
    cleanText 32 "  hello   world  ".toList = .ok "hello world".toList := by
  decide

theorem formatForForm_examples :
    formatForForm 64 "1234567890".toList "phone".toList = .ok "(123) 456-7890".toList ∧
    formatForForm 64 "12345".toList "phone".toList = .ok "12345".toList ∧
    formatForForm 64 "John@EXAMPLE.com".toList "email".toList = .ok "john@example.com".toList ∧
    formatForForm 64 "john  smith".toList "name".toList = .ok "John Smith".toList ∧
    formatForForm 64 " a  b ".toList "other".toList = .ok "a b".toList := by
  decide

/-! ## Claims about the text normaliser -/

/-- C1: on every string, `cleanText` returns the reference value: the whitespace
characters other than the space are deleted, the rest is split on the space, the
empty pieces are dropped and the remaining pieces are joined with one space.  The
result has no two consecutive spaces, neither starts nor ends with a space, and
contains no whitespace other than the space. -/
theorem cleanText_refines_reference (w : Nat) (s : CppString) (h : s.length < npos w) :
    cleanText w s = .ok (cleanTextRef s) ∧
    ¬ List.IsInfix [' ', ' '] (cleanTextRef s) ∧
    (cleanTextRef s).head? ≠ some ' ' ∧
    (cleanTextRef s).getLast? ≠ some ' ' ∧
    ∀ c ∈ cleanTextRef s, isspace c = true → c = ' ' := by
  rw [← cleanTextVal_eq_ref]
  exact ⟨cleanText_eq_val w s h, cleanTextVal_no_double_space s, cleanTextVal_head s,
    cleanTextVal_last s, cleanTextVal_only_space s⟩

theorem cleanText_refines_reference_witness :
    "  hello \t  world\n ".toList.length < npos 64 ∧
    (cleanText 64 "  hello \t  world\n ".toList = .ok (cleanTextRef "  hello \t  world\n ".toList) ∧
     ¬ List.IsInfix [' ', ' '] (cleanTextRef "  hello \t  world\n ".toList) ∧
     (cleanTextRef "  hello \t  world\n ".toList).head? ≠ some ' ' ∧
     (cleanTextRef "  hello \t  world\n ".toList).getLast? ≠ some ' ' ∧
     ∀ c ∈ cleanTextRef "  hello \t  world\n ".toList, isspace c = true → c = ' ') :=
  ⟨by decide, cleanText_refines_reference 64 "  hello \t  world\n ".toList (by decide)⟩

/-- C2: `extractCommands` returns, in order of appearance and in their original
case, exactly the whitespace-delimited tokens whose lower-cased form is one of the
eight action words.  Tokens are matched whole: `clicking` and `Submit.` are not
returned. -/
theorem extractCommands_refines_reference (text : CppString) :
    extractCommands text = .ok (extractCommandsRef text) ∧
    extractCommands "please Click the Submit button".toList
      = .ok ["Click".toList, "Submit".toList] ∧
    extractCommands "clicking".toList = .ok [] ∧
    extractCommands "Submit.".toList = .ok [] := by
  refine ⟨?_, by decide, by decide, by decide⟩
  have := extractLoop_spec (text.length + 1) text [] (by omega)
  simpa [extractCommands] using this

/-- C3: with `d` the digits of `text` in order, `formatForForm text "phone"` is
`(` `d[0..3]` `) ` `d[3..6]` `-` `d[6..10]` when `d` has exactly ten digits and is
`d` itself otherwise, the empty `d` included. -/
theorem formatForForm_phone (w : Nat) (text : CppString) (h : text.length < npos w) :
    formatForForm w text "phone".toList =
      .ok (if (text.filter isdigit).length = 10 then
          ['('] ++ (text.filter isdigit).take 3 ++ [')', ' ']
            ++ ((text.filter isdigit).drop 3).take 3 ++ ['-']
            ++ ((text.filter isdigit).drop 6).take 4
        else text.filter isdigit) := by
  rw [formatForForm_phone_val w text h]
  by_cases hlen : (text.filter isdigit).length = 10
  · simp [substr, hlen]
  · simp [hlen]

theorem formatForForm_phone_witness :
    "call 123-456 7890".toList.length < npos 32 ∧
    formatForForm 32 "call 123-456 7890".toList "phone".toList =
      .ok (if ("call 123-456 7890".toList.filter isdigit).length = 10 then
          ['('] ++ ("call 123-456 7890".toList.filter isdigit).take 3 ++ [')', ' ']
            ++ (("call 123-456 7890".toList.filter isdigit).drop 3).take 3 ++ ['-']
            ++ (("call 123-456 7890".toList.filter isdigit).drop 6).take 4
        else "call 123-456 7890".toList.filter isdigit) :=
  ⟨by decide, formatForForm_phone 32 "call 123-456 7890".toList (by decide)⟩

/-- C4: `formatForForm text "name"` has the length of `cleanText text`, and its
character at index `i` is the upper-case form of the cleaned character when `i`
is `0` or the cleaned character before it is a whitespace character, and is the
cleaned character itself otherwise. -/
theorem formatForForm_name (w : Nat) (text : CppString) (h : text.length < npos w) :
    ∃ cleaned out, cleanText w text = .ok cleaned ∧
      formatForForm w text "name".toList = .ok out ∧
      out.length = cleaned.length ∧
      ∀ i, i < cleaned.length →
        out[i]? = some (if i = 0 ∨ isspace (cleaned.getD (i - 1) ' ') = true
          then toupper (cleaned.getD i ' ') else cleaned.getD i ' ') := by
  refine ⟨cleanTextVal text, capitalizeLoop true (cleanTextVal text), cleanText_eq_val w text h,
    ?_, capitalizeLoop_length _ _, ?_⟩
  · have h1 : ¬ ("name".toList = "phone".toList) := by decide
    have h2 : ¬ ("name".toList = "email".toList) := by decide
    simp only [formatForForm, cleanText_eq_val w text h, if_neg h1, if_neg h2, if_pos]
  · intro i hi
    have e : (cleanTextVal text).getD i ' ' = (cleanTextVal text)[i] :=
      List.getD_eq_getElem _ _ hi
    rw [capitalizeLoop_getElem?, List.getElem?_eq_getElem hi, e]
    by_cases h0 : i = 0
    · subst h0; simp
    · simp [h0]

theorem formatForForm_name_witness :
    "john  mcDonald".toList.length < npos 64 ∧
    ∃ cleaned out, cleanText 64 "john  mcDonald".toList = .ok cleaned ∧
      formatForForm 64 "john  mcDonald".toList "name".toList = .ok out ∧
      out.length = cleaned.length ∧
      ∀ i, i < cleaned.length →
        out[i]? = some (if i = 0 ∨ isspace (cleaned.getD (i - 1) ' ') = true
          then toupper (cleaned.getD i ' ') else cleaned.getD i ' ') :=
  ⟨by decide, formatForForm_name 64 "john  mcDonald".toList (by decide)⟩

/-- C10: on a string that is empty or made only of whitespace characters,
`cleanText` returns normally (no `erase` of the trimming step is out of range)
and its result is the empty string. -/
theorem cleanText_whitespace_only (w : Nat) (s : CppString) (h : s.length < npos w)
    (hs : ∀ c ∈ s, isspace c = true) : cleanText w s = .ok [] := by
  rw [cleanText_eq_val w s h]
  congr 1
  cases hv : cleanTextVal s with
  | nil => rfl
  | cons a as =>
    exfalso
    have hmem : a ∈ cleanTextVal s := by rw [hv]; simp
    have hsub := (cleanTextVal_sublist s).subset hmem
    have ha : a = ' ' :=
      cleanTextVal_only_space s a hmem (hs a (List.mem_of_mem_filter hsub))
    have hh := cleanTextVal_head s
    rw [hv, ha] at hh
    simp at hh

theorem cleanText_whitespace_only_witness :
    " \t \n\r  ".toList.length < npos 64 ∧ (∀ c ∈ " \t \n\r  ".toList, isspace c = true) ∧
    cleanText 64 " \t \n\r  ".toList = .ok [] :=
  ⟨by decide, by decide, cleanText_whitespace_only 64 " \t \n\r  ".toList (by decide) (by decide)⟩

/-! ## Signal conditioner lemmas -/

theorem convertLoop_spec (rnd : ℚ → ℚ) (pcm : List Int) :
    ∀ acc, convertLoop rnd pcm acc
      = .ok (acc ++ pcm.map (fun s : Int => rnd (rnd (s : ℚ) / 32768))) := by
  induction pcm with
  | nil => intro acc; simp [convertLoop]
  | cons s rest ih =>
    intro acc
    simp [convertLoop, fdiv, ih]

theorem binary32_int16 (s : Int) (h : -32768 ≤ s ∧ s ≤ 32767) : binary32 (s : ℚ) := by
  refine ⟨s, 0, ?_, by norm_num, by norm_num, by simp⟩
  rw [abs_lt]; constructor <;> omega

theorem binary32_int16_div (s : Int) (h : -32768 ≤ s ∧ s ≤ 32767) :
    binary32 ((s : ℚ) / 32768) := by
  refine ⟨s, -15, ?_, by norm_num, by norm_num, ?_⟩
  · rw [abs_lt]; constructor <;> omega
  · rw [div_eq_mul_inv]; congr 1; norm_num [zpow_neg]

theorem preemphasisLoop_spec (rnd : ℚ → ℚ) (alpha : ℚ) :
    ∀ (fuel : Nat) (pre : List ℚ) (prev : ℚ) (rest result : List ℚ), rest.length < fuel →
      preemphasisLoop rnd (pre ++ prev :: rest) alpha fuel (pre.length + 1) result
        = .ok (result ++ List.zipWith (fun cur p => fsub rnd cur (fmul rnd alpha p)) rest
            (prev :: rest)) := by
  intro fuel
  induction fuel with
  | zero => intro pre prev rest result h; omega
  | succ fuel ih =>
    intro pre prev rest result hfuel
    cases rest with
    | nil => simp [preemphasisLoop]
    | cons cur rest =>
      have h1 : (pre ++ prev :: cur :: rest)[pre.length + 1]? = some cur := by
        rw [List.getElem?_append_right (by omega)]; simp
      have h2 : (pre ++ prev :: cur :: rest)[pre.length]? = some prev := by
        rw [List.getElem?_append_right (by omega)]; simp
      have hlt : pre.length + 1 < (pre ++ prev :: cur :: rest).length := by simp
      have hrec := ih (pre ++ [prev]) cur rest
        (result ++ [fsub rnd cur (fmul rnd alpha prev)]) (by simp at hfuel; omega)
      simp only [List.length_append, List.length_singleton, List.append_assoc,
        List.singleton_append] at hrec
      simp only [preemphasisLoop, hlt, if_true, vectorAt, h1, Nat.add_sub_cancel, h2, hrec]
      simp

theorem applyPreemphasis_val (rnd : ℚ → ℚ) (audio : List ℚ) (alpha : ℚ) :
    applyPreemphasis rnd audio alpha
      = .ok (audio.head?.toList ++
          List.zipWith (fun cur p => fsub rnd cur (fmul rnd alpha p)) audio.tail audio) := by
  cases audio with
  | nil => simp [applyPreemphasis]
  | cons x rest =>
    have := preemphasisLoop_spec rnd alpha (rest.length + 1) [] x rest [x] (by omega)
    simp only [List.nil_append, List.length_nil, Nat.zero_add] at this
    simp [applyPreemphasis, vectorAt, this]

theorem stdmax_spec (a b : ℚ) :
    a ≤ stdmax a b ∧ b ≤ stdmax a b ∧ (stdmax a b = a ∨ stdmax a b = b) := by
  unfold stdmax
  split
  · exact ⟨by linarith, le_refl _, Or.inr rfl⟩
  · exact ⟨le_refl _, by linarith, Or.inl rfl⟩

theorem peakLoop_spec (l : List ℚ) :
    ∀ m, m ≤ peakLoop l m ∧ (∀ x ∈ l, |x| ≤ peakLoop l m) ∧
      (peakLoop l m = m ∨ ∃ x ∈ l, |x| = peakLoop l m) := by
  induction l with
  | nil => intro m; simp [peakLoop]
  | cons x rest ih =>
    intro m
    obtain ⟨h1, h2, h3⟩ := ih (stdmax m |x|)
    obtain ⟨s1, s2, s3⟩ := stdmax_spec m |x|
    simp only [peakLoop]
    refine ⟨le_trans s1 h1, ?_, ?_⟩
    · intro y hy
      rcases List.mem_cons.1 hy with rfl | hy
      · exact le_trans s2 h1
      · exact h2 y hy
    · rcases h3 with h3 | ⟨y, hy, hy2⟩
      · rcases s3 with s3 | s3
        · left; rw [h3, s3]
        · right; exact ⟨x, by simp, by rw [h3, s3]⟩
      · right; exact ⟨y, by simp [hy], hy2⟩

theorem peakLoop_all_zero (l : List ℚ) (hz : ∀ x ∈ l, x = 0) : peakLoop l 0 = 0 := by
  obtain ⟨_, _, h3⟩ := peakLoop_spec l 0
  rcases h3 with h3 | ⟨x, hx, hx2⟩
  · exact h3
  · rw [← hx2, hz x hx]; simp

theorem divideLoop_spec (rnd : ℚ → ℚ) (maxVal : ℚ) (hM : maxVal ≠ 0) (l : List ℚ) :
    ∀ acc, divideLoop rnd maxVal l acc = .ok (acc ++ l.map (fun x => rnd (x / maxVal))) := by
  induction l with
  | nil => intro acc; simp [divideLoop]
  | cons x rest ih =>
    intro acc
    simp [divideLoop, fdiv, hM, ih]

theorem audio_examples :
    applyPreemphasis id [1, 1 / 2, -1 / 2] (defaultAlpha id)
      = .ok [1, 1 / 2 - 97 / 100, -1 / 2 - 97 / 100 * (1 / 2)] ∧
    normalizeAudio id [1 / 2, -1, 1 / 4] = .ok [1 / 2, -1, 1 / 4] ∧
    normalizeAudio id [0, 0] = .ok [0, 0] ∧
    convertPCMToFloat id [-32768, 16384] = .ok [-1, 1 / 2] ∧
    detectVoiceActivity id [] (defaultThreshold id) = .ok false := by
  refine ⟨?_, ?_, ?_, ?_, ?_⟩
  · rw [applyPreemphasis_val]; norm_num [fsub, fmul, defaultAlpha]
  · norm_num [normalizeAudio, peakLoop, stdmax, divideLoop, fdiv, abs_of_nonneg, abs_of_neg]
  · norm_num [normalizeAudio, peakLoop, stdmax]
  · norm_num [convertPCMToFloat, convertLoop, fdiv]
  · simp [detectVoiceActivity]

/-! ## Claims about the signal conditioner -/

/-- On finite samples: for a buffer with at least one non-zero sample,
`normalizeAudio` returns a buffer of the same length whose samples are the input
samples divided by the peak absolute magnitude `M`, and the largest absolute value
of the output is exactly `1`.  The rounding is any monotone function that keeps
`1` and `-1`. -/
theorem normalizeAudio_peak_one (rnd : ℚ → ℚ) (hmono : Monotone rnd) (h1 : rnd 1 = 1)
    (hneg : rnd (-1) = -1) (audio : List ℚ) (hnz : ∃ x ∈ audio, x ≠ 0) :
    ∃ M, 0 < M ∧ (∀ x ∈ audio, |x| ≤ M) ∧ (∃ x ∈ audio, |x| = M) ∧
      normalizeAudio rnd audio = .ok (audio.map (fun x => rnd (x / M))) ∧
      (audio.map (fun x => rnd (x / M))).length = audio.length ∧
      (∃ y ∈ audio.map (fun x => rnd (x / M)), |y| = 1) ∧
      (∀ y ∈ audio.map (fun x => rnd (x / M)), |y| ≤ 1) := by
  obtain ⟨x0, hx0, hx0ne⟩ := hnz
  obtain ⟨_, hle, hor⟩ := peakLoop_spec audio 0
  have hpos : 0 < peakLoop audio 0 := lt_of_lt_of_le (abs_pos.2 hx0ne) (hle x0 hx0)
  have hne : peakLoop audio 0 ≠ 0 := ne_of_gt hpos
  have hex : ∃ x ∈ audio, |x| = peakLoop audio 0 := by
    rcases hor with h | h
    · exact absurd h hne
    · exact h
  have hnil : audio.isEmpty = false := by
    cases audio with
    | nil => simp at hx0
    | cons _ _ => rfl
  refine ⟨peakLoop audio 0, hpos, hle, hex, ?_, by simp, ?_, ?_⟩
  · have := divideLoop_spec rnd (peakLoop audio 0) hne audio []
    simp only [List.nil_append] at this
    simp [normalizeAudio, hnil, hne, this]
  · obtain ⟨x, hx, hxM⟩ := hex
    refine ⟨rnd (x / peakLoop audio 0), List.mem_map.2 ⟨x, hx, rfl⟩, ?_⟩
    rcases abs_eq_abs.1 (hxM.trans (abs_of_pos hpos).symm) with h | h
    · rw [h, div_self hne, h1]; simp
    · rw [h, neg_div, div_self hne, hneg]; simp
  · intro y hy
    obtain ⟨x, hx, rfl⟩ := List.mem_map.1 hy
    have hb := abs_le.1 (hle x hx)
    rw [abs_le]
    constructor
    · rw [← hneg]
      apply hmono
      rw [le_div_iff₀ hpos]; linarith
    · rw [← h1]
      apply hmono
      rw [div_le_iff₀ hpos]; linarith

/-- C7: for a buffer of 16-bit samples, `convertPCMToFloat` returns a buffer of
the same length whose sample `i` is exactly `p[i] / 32768`.  The rounding is any
function that keeps the values of the binary32 format. -/
theorem convertPCMToFloat_exact (rnd : ℚ → ℚ) (hrnd : ∀ q, binary32 q → rnd q = q)
    (pcm : List Int) (hpcm : ∀ s ∈ pcm, -32768 ≤ s ∧ s ≤ 32767) :
    ∃ out, convertPCMToFloat rnd pcm = .ok out ∧ out.length = pcm.length ∧
      ∀ i : Nat, out[i]? = (pcm[i]?).map (fun s : Int => (s : ℚ) / 32768) := by
  refine ⟨pcm.map (fun s : Int => (s : ℚ) / 32768), ?_, by simp, by simp⟩
  have := convertLoop_spec rnd pcm []
  simp only [List.nil_append] at this
  rw [convertPCMToFloat, this]
  congr 1
  apply List.map_congr_left
  intro s hs
  rw [hrnd _ (binary32_int16 s (hpcm s hs)), hrnd _ (binary32_int16_div s (hpcm s hs))]

theorem convertPCMToFloat_exact_witness :
    (∀ q, binary32 q → id q = q) ∧ (∀ s ∈ [(-32768 : Int), 0, 12345, 32767], -32768 ≤ s ∧ s ≤ 32767) ∧
    ∃ out, convertPCMToFloat id [(-32768 : Int), 0, 12345, 32767] = .ok out ∧
      out.length = [(-32768 : Int), 0, 12345, 32767].length ∧
      ∀ i : Nat, out[i]? = ([(-32768 : Int), 0, 12345, 32767][i]?).map (fun s : Int => (s : ℚ) / 32768) :=
  ⟨fun _ _ => rfl, by decide,
    convertPCMToFloat_exact id (fun _ _ => rfl) [(-32768 : Int), 0, 12345, 32767] (by decide)⟩

/-- C8: `applyPreemphasis` returns a buffer of the same length; its sample `0` is
`audio[0]` and its sample `i + 1` is `audio[i + 1] - alpha * audio[i]`, computed
from the input samples.  The empty buffer gives the empty buffer and `[x]` gives
`[x]`. -/
theorem applyPreemphasis_spec (rnd : ℚ → ℚ) (audio : List ℚ) (alpha : ℚ) :
    ∃ out, applyPreemphasis rnd audio alpha = .ok out ∧ out.length = audio.length ∧
      out[0]? = audio[0]? ∧
      (∀ i : Nat, out[i + 1]? =
        (audio[i + 1]?).map (fun cur => fsub rnd cur (fmul rnd alpha (audio.getD i 0)))) ∧
      applyPreemphasis rnd [] alpha = .ok [] ∧
      ∀ x, applyPreemphasis rnd [x] alpha = .ok [x] := by
  refine ⟨_, applyPreemphasis_val rnd audio alpha, ?_, ?_, ?_, by simp [applyPreemphasis], ?_⟩
  · cases audio with
    | nil => simp
    | cons x rest => simp
  · cases audio with
    | nil => simp
    | cons x rest => simp
  · intro i
    cases audio with
    | nil => simp
    | cons x rest =>
      simp only [List.head?_cons, Option.toList_some, List.tail_cons, List.singleton_append,
        List.getElem?_cons_succ, List.getElem?_zipWith]
      cases hcur : rest[i]? with
      | none => simp
      | some cur =>
        have hi : i < (x :: rest).length := by
          have := (List.getElem?_eq_some.1 hcur).1
          simp; omega
        rw [List.getElem?_eq_getElem hi, List.getD_eq_getElem _ _ hi]
        simp
  · intro x
    rw [applyPreemphasis_val]; simp

/-- C9: on a buffer whose peak absolute magnitude is `0`, that is the empty buffer
and every all-zero buffer, `normalizeAudio` returns the buffer unchanged and
divides by nothing. -/
theorem normalizeAudio_zero_peak (rnd : ℚ → ℚ) (audio : List ℚ) (hz : ∀ x ∈ audio, x = 0) :
    peakLoop audio 0 = 0 ∧ normalizeAudio rnd audio = .ok audio := by
  refine ⟨peakLoop_all_zero audio hz, ?_⟩
  simp [normalizeAudio, peakLoop_all_zero audio hz]

theorem normalizeAudio_zero_peak_witness :
    (∀ x ∈ [(0 : ℚ), 0, 0], x = 0) ∧
    peakLoop [(0 : ℚ), 0, 0] 0 = 0 ∧ normalizeAudio id [(0 : ℚ), 0, 0] = .ok [(0 : ℚ), 0, 0] :=
  ⟨by simp, normalizeAudio_zero_peak id [(0 : ℚ), 0, 0] (by simp)⟩

/-! ## Engine session lemmas -/

theorem segmentLoop_spec {σ : Type} (E : Engine σ) (ctx : Handle) (n : Int) :
    ∀ (fuel k : Nat) (result : CppString) (wd : World σ), n.toNat - k < fuel →
      segmentLoop E ctx n fuel (k : Int) result wd =
        .ok (result ++ ((List.range' k (n.toNat - k)).map
              (fun j : Nat => E.whisper_full_get_segment_text ctx (j : Int) wd.engine)).flatten,
            ⟨wd.engine, wd.calls ++ (List.range' k (n.toNat - k)).map
              (fun j : Nat => EngineCall.whisper_full_get_segment_text ctx (j : Int))⟩) := by
  intro fuel
  induction fuel with
  | zero => intro k result wd h; omega
  | succ fuel ih =>
    intro k result wd hfuel
    by_cases hlt : (k : Int) < n
    · obtain ⟨m, hm⟩ : ∃ m, n.toNat - k = m + 1 := ⟨n.toNat - k - 1, by omega⟩
      have hrec := ih (k + 1) (result ++ E.whisper_full_get_segment_text ctx (k : Int) wd.engine)
        ⟨wd.engine, wd.calls ++ [EngineCall.whisper_full_get_segment_text ctx (k : Int)]⟩
        (by omega)
      have hm2 : n.toNat - (k + 1) = m := by omega
      rw [hm2] at hrec
      simp only [segmentLoop, hlt, if_true, hm, List.range'_succ, List.map_cons,
        List.flatten_cons]
      rw [show ((k : Int) + 1) = ((k + 1 : Nat) : Int) by push_cast; rfl, hrec]
      simp
    · have h0 : n.toNat - k = 0 := by omega
      simp [segmentLoop, hlt, h0]

/-! ## Claims about the engine session -/

/-- C11 as stated fails on a session that already holds a speech handle: the
failed call returns `false` and stores null over the handle. -/
theorem initializeWhisper_failure_overwrites_handle :
    (idleEngine.whisper_init_from_file "missing.bin".toList ()).1 = none ∧
    (initializeWhisper ⟨true, true⟩ idleEngine "missing.bin".toList ⟨some 7, none⟩ ⟨(), []⟩).1
      = false ∧
    (initializeWhisper ⟨true, true⟩ idleEngine "missing.bin".toList ⟨some 7, none⟩ ⟨(), []⟩).2.1
      = ⟨none, none⟩ ∧
    (initializeWhisper ⟨true, true⟩ idleEngine "missing.bin".toList ⟨some 7, none⟩ ⟨(), []⟩).2.1
      ≠ ⟨some 7, none⟩ := by
  decide

/-- C11, amended: when the speech engine reports that the model could not be
loaded, `initializeWhisper` on a session whose speech handle is uninitialized
returns `false` and leaves the session exactly as it was. -/
theorem initializeWhisper_failure_keeps_uninitialized {σ : Type} (cfg : Build) (E : Engine σ)
    (modelPath : CppString) (llama : Option Handle) (wd : World σ)
    (hfail : (E.whisper_init_from_file modelPath wd.engine).1 = none) :
    (initializeWhisper cfg E modelPath ⟨none, llama⟩ wd).1 = false ∧
    (initializeWhisper cfg E modelPath ⟨none, llama⟩ wd).2.1 = ⟨none, llama⟩ := by
  by_cases hc : cfg.whisper_available = true
  · simp [initializeWhisper, hc, hfail]
  · simp [initializeWhisper, hc]

theorem initializeWhisper_failure_keeps_uninitialized_witness :
    (idleEngine.whisper_init_from_file "missing.bin".toList ()).1 = none ∧
    (initializeWhisper ⟨true, true⟩ idleEngine "missing.bin".toList ⟨none, some 3⟩ ⟨(), []⟩).1
      = false ∧
    (initializeWhisper ⟨true, true⟩ idleEngine "missing.bin".toList ⟨none, some 3⟩ ⟨(), []⟩).2.1
      = ⟨none, some 3⟩ :=
  ⟨rfl, initializeWhisper_failure_keeps_uninitialized ⟨true, true⟩ idleEngine
    "missing.bin".toList (some 3) ⟨(), []⟩ rfl⟩

theorem initializeLLaMA_whisper_ctx {σ : Type} (cfg : Build) (E : Engine σ)
    (modelPath : CppString) (self : Session) (wd : World σ) :
    (initializeLLaMA cfg E modelPath self wd).2.1.whisper_ctx = self.whisper_ctx := by
  unfold initializeLLaMA
  by_cases hc : cfg.llama_available = true
  · simp only [hc, if_true]
    cases h1 : (E.llama_load_model_from_file modelPath (E.llama_backend_init wd.engine)).1 with
    | none => rfl
    | some model =>
      simp only []
      split <;> rfl
  · simp [hc]

theorem transcribeAudio_null {σ : Type} (cfg : Build) (E : Engine σ) (audio : List ℚ)
    (self : Session) (wd : World σ) (h : self.whisper_ctx = none) :
    transcribeAudio cfg E audio self wd = .ok ([], self, wd) := by
  by_cases hc : cfg.whisper_available = true <;> simp [transcribeAudio, hc, h]

/-- C12: with an uninitialized speech handle `transcribeAudio` returns the empty
string, and with an uninitialized language-model handle `processText` returns the
empty string; the session, the engine state and the recorded engine calls are
unchanged.  The same holds at the JNI entries when no session exists yet, for a
session that was just created, and for `transcribeAudio` in the session that
`initializeLLaMA` alone has created. -/
theorem uninitialized_handle_returns_empty {σ : Type} (cfg : Build) (E : Engine σ)
    (audio : List ℚ) (input model_path : CppString) (other : Option Handle) (wd : World σ) :
    transcribeAudio cfg E audio ⟨none, other⟩ wd = .ok ([], ⟨none, other⟩, wd) ∧
    processText cfg input ⟨other, none⟩ wd = ([], ⟨other, none⟩, wd) ∧
    Java_com_voicebridge_VoiceBridgeNative_transcribeAudio cfg E none audio wd
      = .ok ([], none, wd) ∧
    Java_com_voicebridge_VoiceBridgeNative_transcribeAudio cfg E (some Session.fresh) audio wd
      = .ok ([], some Session.fresh, wd) ∧
    Java_com_voicebridge_VoiceBridgeNative_processText cfg none input wd = ([], none, wd) ∧
    Java_com_voicebridge_VoiceBridgeNative_processText cfg (some Session.fresh) input wd
      = ([], some Session.fresh, wd) ∧
    Java_com_voicebridge_VoiceBridgeNative_transcribeAudio cfg E
        (Java_com_voicebridge_VoiceBridgeNative_initializeLLaMA cfg E none model_path wd).2.1
        audio (Java_com_voicebridge_VoiceBridgeNative_initializeLLaMA cfg E none model_path wd).2.2
      = .ok ([], (Java_com_voicebridge_VoiceBridgeNative_initializeLLaMA cfg E none model_path wd).2.1,
          (Java_com_voicebridge_VoiceBridgeNative_initializeLLaMA cfg E none model_path wd).2.2) := by
  have hp : ∀ o : Option Handle, processText cfg input ⟨o, none⟩ wd = ([], ⟨o, none⟩, wd) := by
    intro o
    by_cases hc : cfg.llama_available = true <;> simp [processText, hc]
  refine ⟨transcribeAudio_null cfg E audio _ wd rfl, hp other, rfl, ?_, rfl, ?_, ?_⟩
  · simp only [Java_com_voicebridge_VoiceBridgeNative_transcribeAudio,
      transcribeAudio_null cfg E audio Session.fresh wd rfl]
  · simp only [Java_com_voicebridge_VoiceBridgeNative_processText, Session.fresh, hp none]
  · have hw := initializeLLaMA_whisper_ctx cfg E model_path Session.fresh wd
    simp only [Java_com_voicebridge_VoiceBridgeNative_transcribeAudio,
      Java_com_voicebridge_VoiceBridgeNative_initializeLLaMA,
      transcribeAudio_null cfg E audio _ _ hw]

/-- C13: in a session whose speech handle is present, `transcribeAudio` returns
the empty string when the run of the engine fails, and otherwise the
concatenation, in index order and without separator, of the texts of the
segments `0 .. n - 1` that the engine reports; the session is unchanged. -/
theorem transcribeAudio_concatenates {σ : Type} (la : Bool) (E : Engine σ) (audio : List ℚ)
    (ctx : Handle) (other : Option Handle) (wd : World σ) :
    (transcribeAudio ⟨true, la⟩ E audio ⟨some ctx, other⟩ wd).map (fun r => (r.1, r.2.1)) =
      .ok (if (E.whisper_full ctx audio wd.engine).1 ≠ 0 then []
           else ((List.range
              (E.whisper_full_n_segments ctx (E.whisper_full ctx audio wd.engine).2).toNat).map
                (fun i : Nat => E.whisper_full_get_segment_text ctx (i : Int)
                  (E.whisper_full ctx audio wd.engine).2)).flatten,
           ⟨some ctx, other⟩) := by
  by_cases hrc : (E.whisper_full ctx audio wd.engine).1 = 0
  · have hloop := segmentLoop_spec E ctx
      (E.whisper_full_n_segments ctx (E.whisper_full ctx audio wd.engine).2)
      ((E.whisper_full_n_segments ctx (E.whisper_full ctx audio wd.engine).2).toNat + 1) 0 []
      ⟨(E.whisper_full ctx audio wd.engine).2,
        wd.calls ++ [EngineCall.whisper_full_default_params, EngineCall.whisper_full ctx audio]
          ++ [EngineCall.whisper_full_n_segments ctx]⟩ (by omega)
    simp only [Nat.cast_zero, Nat.sub_zero, List.nil_append] at hloop
    simp only [transcribeAudio, if_true, hrc, ne_eq, not_true_eq_false, if_false, hloop,
      List.range_eq_range']
    rfl
  · simp [transcribeAudio, hrc, Except.map]

/-- C14 as stated fails: the destructor leaves the speech handle stored in the
session, and applied to that state again it frees the same handle again. -/
theorem destructor_twice_frees_again :
    (destructor ⟨true, true⟩ idleEngine ⟨some 1, none⟩ ⟨(), []⟩).1 = ⟨some 1, none⟩ ∧
    (destructor ⟨true, true⟩ idleEngine ⟨some 1, none⟩ ⟨(), []⟩).2.calls
      = [EngineCall.whisper_free 1, EngineCall.llama_backend_free] ∧
    (destructor ⟨true, true⟩ idleEngine
        (destructor ⟨true, true⟩ idleEngine ⟨some 1, none⟩ ⟨(), []⟩).1
        (destructor ⟨true, true⟩ idleEngine ⟨some 1, none⟩ ⟨(), []⟩).2).2.calls
      = [EngineCall.whisper_free 1, EngineCall.llama_backend_free,
         EngineCall.whisper_free 1, EngineCall.llama_backend_free] := by
  decide

/-- C14, amended: in every session state the destructor frees each handle that
is present exactly once, frees no absent handle, and then releases the backend of
the language model; it leaves the handles stored in the session as they were. -/
theorem destructor_frees_present_handles_once {σ : Type} (E : Engine σ) (self : Session)
    (wd : World σ) :
    (destructor ⟨true, true⟩ E self wd).1 = self ∧
    (destructor ⟨true, true⟩ E self wd).2.calls =
      wd.calls ++ self.whisper_ctx.toList.map EngineCall.whisper_free
        ++ self.llama_ctx.toList.map EngineCall.llama_free ++ [EngineCall.llama_backend_free] := by
  obtain ⟨wctx, lctx⟩ := self
  cases wctx <;> cases lctx <;> simp [destructor]

/-- C16: in a session whose language-model handle is present, `processText`
makes no engine call and returns `Processed: ` followed by the unchanged input,
which is therefore what is left of the output after the eleven characters of the
fixed text. -/
theorem processText_placeholder {σ : Type} (wa : Bool) (input : CppString) (ctx : Handle)
    (other : Option Handle) (wd : World σ) :
    processText ⟨wa, true⟩ input ⟨other, some ctx⟩ wd
      = ("Processed: ".toList ++ input, ⟨other, some ctx⟩, wd) ∧
    (processText ⟨wa, true⟩ input ⟨other, some ctx⟩ wd).1.drop 11 = input ∧
    List.IsSuffix input (processText ⟨wa, true⟩ input ⟨other, some ctx⟩ wd).1 := by
  refine ⟨rfl, rfl, ?_⟩
  exact ⟨"Processed: ".toList, rfl⟩

/-! ## Further signal conditioner lemmas -/

theorem normalizeAudio_of_peak_zero (rnd : ℚ → ℚ) (audio : List ℚ) (h : peakLoop audio 0 = 0) :
    normalizeAudio rnd audio = .ok audio := by
  simp [normalizeAudio, h]

theorem normalizeAudio_of_peak_ne (rnd : ℚ → ℚ) (audio : List ℚ) (h : peakLoop audio 0 ≠ 0) :
    normalizeAudio rnd audio = .ok (audio.map (fun x => rnd (x / peakLoop audio 0))) := by
  have hnil : audio.isEmpty = false := by
    cases audio with
    | nil => simp [peakLoop] at h
    | cons _ _ => rfl
  have := divideLoop_spec rnd (peakLoop audio 0) h audio []
  simp only [List.nil_append] at this
  simp [normalizeAudio, hnil, h, this]

theorem peakLoop_nonneg (l : List ℚ) : 0 ≤ peakLoop l 0 := (peakLoop_spec l 0).1

theorem peakLoop_eq_of_peak (l : List ℚ) (M : ℚ) (hle : ∀ x ∈ l, |x| ≤ M)
    (hex : ∃ x ∈ l, |x| = M) : peakLoop l 0 = M := by
  obtain ⟨_, h2, h3⟩ := peakLoop_spec l 0
  obtain ⟨x0, hx0, hx0M⟩ := hex
  apply le_antisymm
  · rcases h3 with h3 | ⟨y, hy, hyP⟩
    · rw [h3, ← hx0M]; exact abs_nonneg _
    · rw [← hyP]; exact hle y hy
  · rw [← hx0M]; exact h2 x0 hx0

theorem normalized_peak (rnd : ℚ → ℚ) (hmono : Monotone rnd) (h1 : rnd 1 = 1)
    (hneg : rnd (-1) = -1) (audio : List ℚ) (hne : peakLoop audio 0 ≠ 0) :
    (∀ y ∈ audio.map (fun x => rnd (x / peakLoop audio 0)), |y| ≤ 1) ∧
    (∃ y ∈ audio.map (fun x => rnd (x / peakLoop audio 0)), |y| = 1) := by
  obtain ⟨_, hle, hor⟩ := peakLoop_spec audio 0
  have hpos : 0 < peakLoop audio 0 := lt_of_le_of_ne (peakLoop_nonneg audio) (Ne.symm hne)
  constructor
  · intro y hy
    obtain ⟨x, hx, rfl⟩ := List.mem_map.1 hy
    have hb := abs_le.1 (hle x hx)
    rw [abs_le]
    constructor
    · rw [← hneg]
      apply hmono
      rw [le_div_iff₀ hpos]; linarith
    · rw [← h1]
      apply hmono
      rw [div_le_iff₀ hpos]; linarith
  · rcases hor with h | ⟨x, hx, hxM⟩
    · exact absurd h hne
    · refine ⟨rnd (x / peakLoop audio 0), List.mem_map.2 ⟨x, hx, rfl⟩, ?_⟩
      rcases abs_eq_abs.1 (hxM.trans (abs_of_pos hpos).symm) with h | h
      · rw [h, div_self hne, h1]; simp
      · rw [h, neg_div, div_self hne, hneg]; simp

theorem stdmax_mul (c a b : ℚ) (hc : 0 < c) : stdmax (c * a) (c * b) = c * stdmax a b := by
  unfold stdmax
  by_cases h : a < b
  · rw [if_pos h, if_pos (mul_lt_mul_of_pos_left h hc)]
  · rw [if_neg h, if_neg (fun h2 => h (lt_of_mul_lt_mul_left h2 hc.le))]

theorem peakLoop_mul (c : ℚ) (hc : 0 < c) (l : List ℚ) :
    ∀ m, peakLoop (l.map (fun x => c * x)) (c * m) = c * peakLoop l m := by
  induction l with
  | nil => intro m; rfl
  | cons x rest ih =>
    intro m
    simp only [List.map_cons, peakLoop]
    rw [abs_mul, abs_of_pos hc, stdmax_mul c m |x| hc, ih]

theorem convertPCMToFloat_val (rnd : ℚ → ℚ) (hrnd : ∀ q, binary32 q → rnd q = q)
    (pcm : List Int) (hpcm : ∀ s ∈ pcm, -32768 ≤ s ∧ s ≤ 32767) :
    convertPCMToFloat rnd pcm = .ok (pcm.map (fun s : Int => (s : ℚ) / 32768)) := by
  have := convertLoop_spec rnd pcm []
  simp only [List.nil_append] at this
  rw [convertPCMToFloat, this]
  congr 1
  apply List.map_congr_left
  intro s hs
  rw [hrnd _ (binary32_int16 s (hpcm s hs)), hrnd _ (binary32_int16_div s (hpcm s hs))]

/-! ## Further claims about the signal conditioner -/

/-- C15: `normalizeAudio` returns unchanged every buffer of float values whose
peak absolute magnitude is exactly `1`, and applying it twice gives the result of
applying it once.  The rounding is any monotone idempotent function that keeps `1`
and `-1`. -/
theorem normalizeAudio_idempotent (rnd : ℚ → ℚ) (hmono : Monotone rnd) (h1 : rnd 1 = 1)
    (hneg : rnd (-1) = -1) (hidem : ∀ x, rnd (rnd x) = rnd x)
    (unit audio : List ℚ) (hfloat : ∀ x ∈ unit, rnd x = x)
    (hle : ∀ x ∈ unit, |x| ≤ 1) (hex : ∃ x ∈ unit, |x| = 1) :
    normalizeAudio rnd unit = .ok unit ∧
    ∃ out, normalizeAudio rnd audio = .ok out ∧ normalizeAudio rnd out = .ok out := by
  have hunit : ∀ l : List ℚ, (∀ x ∈ l, rnd x = x) → (∀ x ∈ l, |x| ≤ 1) →
      (∃ x ∈ l, |x| = 1) → normalizeAudio rnd l = .ok l := by
    intro l hf hl he
    have hp : peakLoop l 0 = 1 := peakLoop_eq_of_peak l 1 hl he
    rw [normalizeAudio_of_peak_ne rnd l (by rw [hp]; norm_num), hp]
    congr 1
    conv_rhs => rw [← List.map_id l]
    apply List.map_congr_left
    intro x hx
    simp [hf x hx]
  refine ⟨hunit unit hfloat hle hex, ?_⟩
  by_cases hp : peakLoop audio 0 = 0
  · exact ⟨audio, normalizeAudio_of_peak_zero rnd audio hp,
      normalizeAudio_of_peak_zero rnd audio hp⟩
  · refine ⟨_, normalizeAudio_of_peak_ne rnd audio hp, ?_⟩
    obtain ⟨hl, he⟩ := normalized_peak rnd hmono h1 hneg audio hp
    apply hunit _ _ hl he
    intro y hy
    obtain ⟨x, _, rfl⟩ := List.mem_map.1 hy
    exact hidem _

theorem normalizeAudio_idempotent_witness :
    Monotone (id : ℚ → ℚ) ∧ (∀ x ∈ [(1 / 2 : ℚ), -1, 1 / 4], id x = x) ∧
    (∀ x ∈ [(1 / 2 : ℚ), -1, 1 / 4], |x| ≤ 1) ∧ (∃ x ∈ [(1 / 2 : ℚ), -1, 1 / 4], |x| = 1) ∧
    normalizeAudio id [(1 / 2 : ℚ), -1, 1 / 4] = .ok [(1 / 2 : ℚ), -1, 1 / 4] ∧
    ∃ out, normalizeAudio id [(3 : ℚ), -6, 2] = .ok out ∧ normalizeAudio id out = .ok out :=
  have hle : ∀ x ∈ [(1 / 2 : ℚ), -1, 1 / 4], |x| ≤ 1 := by
    intro x hx
    simp only [List.mem_cons, List.mem_singleton, List.not_mem_nil, or_false] at hx
    rcases hx with rfl | rfl | rfl <;> norm_num [abs_le]
  ⟨monotone_id, fun _ _ => rfl, hle, ⟨-1, by simp, by norm_num⟩,
    normalizeAudio_idempotent id monotone_id rfl rfl (fun _ => rfl) [(1 / 2 : ℚ), -1, 1 / 4]
      [(3 : ℚ), -6, 2] (fun _ _ => rfl) hle ⟨-1, by simp, by norm_num⟩⟩

/-- C18: in exact arithmetic `normalizeAudio` gives the same result for a buffer
and for the buffer with every sample multiplied by a positive `c`; hence
`detectVoiceActivity` after `normalizeAudio` gives the same answer for both. -/
theorem normalizeAudio_gain_invariant (audio : List ℚ) (c threshold : ℚ) (hc : 0 < c) :
    normalizeAudio id (audio.map (fun x => c * x)) = normalizeAudio id audio ∧
    (normalizeAudio id (audio.map (fun x => c * x))).bind
        (fun a => detectVoiceActivity id a threshold)
      = (normalizeAudio id audio).bind (fun a => detectVoiceActivity id a threshold) := by
  have hmain : normalizeAudio id (audio.map (fun x => c * x)) = normalizeAudio id audio := by
    have hpk := peakLoop_mul c hc audio 0
    rw [mul_zero] at hpk
    by_cases hp : peakLoop audio 0 = 0
    · have hz : ∀ x ∈ audio, x = 0 := by
        intro x hx
        have := (peakLoop_spec audio 0).2.1 x hx
        rw [hp] at this
        exact abs_eq_zero.1 (le_antisymm this (abs_nonneg x))
      have hsame : audio.map (fun x => c * x) = audio := by
        conv_rhs => rw [← List.map_id audio]
        apply List.map_congr_left
        intro x hx
        simp [hz x hx]
      rw [hsame]
    · have hp2 : peakLoop (audio.map (fun x => c * x)) 0 ≠ 0 := by
        rw [hpk]; exact mul_ne_zero (ne_of_gt hc) hp
      rw [normalizeAudio_of_peak_ne id _ hp2, normalizeAudio_of_peak_ne id _ hp, hpk,
        List.map_map]
      congr 1
      apply List.map_congr_left
      intro x _
      simp only [Function.comp, id]
      exact mul_div_mul_left x (peakLoop audio 0) (ne_of_gt hc)
  exact ⟨hmain, by rw [hmain]⟩

theorem normalizeAudio_gain_invariant_witness :
    (0 : ℚ) < 3 ∧
    normalizeAudio id ([(1 / 2 : ℚ), -2, 0].map (fun x => 3 * x))
      = normalizeAudio id [(1 / 2 : ℚ), -2, 0] ∧
    (normalizeAudio id ([(1 / 2 : ℚ), -2, 0].map (fun x => 3 * x))).bind
        (fun a => detectVoiceActivity id a (1 / 50))
      = (normalizeAudio id [(1 / 2 : ℚ), -2, 0]).bind
        (fun a => detectVoiceActivity id a (1 / 50)) :=
  ⟨by norm_num, normalizeAudio_gain_invariant [(1 / 2 : ℚ), -2, 0] 3 (1 / 50) (by norm_num)⟩

/-- C20: every sample returned by `convertPCMToFloat` is at least `-1` and less
than `1`, and at most `32767 / 32768`; the value `-1` stands exactly where the
input sample is `-32768`.  The rounding is any function that keeps the values of
the binary32 format. -/
theorem convertPCMToFloat_range (rnd : ℚ → ℚ) (hrnd : ∀ q, binary32 q → rnd q = q)
    (pcm : List Int) (hpcm : ∀ s ∈ pcm, -32768 ≤ s ∧ s ≤ 32767) :
    ∃ out, convertPCMToFloat rnd pcm = .ok out ∧
      (∀ y ∈ out, -1 ≤ y ∧ y < 1 ∧ y ≤ 32767 / 32768) ∧
      (∀ i : Nat, out[i]? = some (-1) ↔ pcm[i]? = some (-32768)) := by
  refine ⟨_, convertPCMToFloat_val rnd hrnd pcm hpcm, ?_, ?_⟩
  · intro y hy
    obtain ⟨s, hs, rfl⟩ := List.mem_map.1 hy
    obtain ⟨hlo, hhi⟩ := hpcm s hs
    have h1 : (-32768 : ℚ) ≤ (s : ℚ) := by exact_mod_cast hlo
    have h2 : (s : ℚ) ≤ 32767 := by exact_mod_cast hhi
    refine ⟨?_, ?_, ?_⟩
    · rw [le_div_iff₀ (by norm_num)]; linarith
    · rw [div_lt_iff₀ (by norm_num)]; linarith
    · rw [div_le_div_iff_of_pos_right (by norm_num)]; exact h2
  · intro i
    rw [List.getElem?_map]
    cases hpi : pcm[i]? with
    | none => simp
    | some s =>
      simp only [Option.map_some', Option.some.injEq]
      constructor
      · intro h
        have h3 : (s : ℚ) = -32768 := by
          rw [div_eq_iff (by norm_num)] at h; linarith
        exact_mod_cast h3
      · intro h
        rw [h]; norm_num

theorem convertPCMToFloat_range_witness :
    (∀ q, binary32 q → id q = q) ∧ (∀ s ∈ [(-32768 : Int), 32767, 5], -32768 ≤ s ∧ s ≤ 32767) ∧
    ∃ out, convertPCMToFloat id [(-32768 : Int), 32767, 5] = .ok out ∧
      (∀ y ∈ out, -1 ≤ y ∧ y < 1 ∧ y ≤ 32767 / 32768) ∧
      (∀ i : Nat, out[i]? = some (-1) ↔ [(-32768 : Int), 32767, 5][i]? = some (-32768)) :=
  ⟨fun _ _ => rfl, by decide,
    convertPCMToFloat_range id (fun _ _ => rfl) [(-32768 : Int), 32767, 5] (by decide)⟩

/-! ## Letter case and whitespace -/

theorem upper_cases (P : Char → Prop) (hP : ∀ n, 65 ≤ n → n ≤ 90 → P (Char.ofNat n))
    (c : Char) (h : 65 ≤ c.toNat ∧ c.toNat ≤ 90) : P c := by
  rw [← Char.ofNat_toNat c]; exact hP _ h.1 h.2

theorem lower_cases (P : Char → Prop) (hP : ∀ n, 97 ≤ n → n ≤ 122 → P (Char.ofNat n))
    (c : Char) (h : 97 ≤ c.toNat ∧ c.toNat ≤ 122) : P c := by
  rw [← Char.ofNat_toNat c]; exact hP _ h.1 h.2

theorem tolower_shape (c : Char) :
    (c = ' ' ↔ tolower c = ' ') ∧ isspace c = isspace (tolower c) ∧
      tolower (tolower c) = tolower c := by
  by_cases h : 65 ≤ c.toNat ∧ c.toNat ≤ 90
  · revert c
    apply upper_cases
    intro n h1 h2
    interval_cases n <;> decide
  · have : tolower c = c := by simp [tolower, h]
    rw [this]; simp [this]

theorem toupper_shape (c : Char) :
    (c = ' ' ↔ toupper c = ' ') ∧ isspace c = isspace (toupper c) ∧
      toupper (toupper c) = toupper c := by
  by_cases h : 97 ≤ c.toNat ∧ c.toNat ≤ 122
  · revert c
    apply lower_cases
    intro n h1 h2
    interval_cases n <;> decide
  · have : toupper c = c := by simp [toupper, h]
    rw [this]; simp [this]

theorem splitOnWhitespace_ne_nil (l : CppString) : splitOnWhitespace l ≠ [] := by
  cases l with
  | nil => simp [splitOnWhitespace]
  | cons c cs =>
    simp only [splitOnWhitespace]
    split
    · simp
    · split <;> simp

theorem splitOnWhitespace_map_tolower (l : CppString) :
    splitOnWhitespace (l.map tolower) = (splitOnWhitespace l).map (List.map tolower) := by
  induction l with
  | nil => simp [splitOnWhitespace]
  | cons c cs ih =>
    have hsp : isspace (tolower c) = isspace c := (tolower_shape c).2.1.symm
    simp only [List.map_cons, splitOnWhitespace, hsp, ih]
    by_cases hc : isspace c = true
    · simp [hc]
    · simp only [hc, if_false]
      cases hs : splitOnWhitespace cs with
      | nil => exact absurd hs (splitOnWhitespace_ne_nil cs)
      | cons p ps => simp

theorem tokens_map_tolower (l : CppString) :
    tokens (l.map tolower) = (tokens l).map (List.map tolower) := by
  simp only [tokens, splitOnWhitespace_map_tolower, List.filter_map]
  congr 1
  apply List.filter_congr
  intro p _
  cases p <;> simp

theorem extractCommandsRef_map_tolower (text : CppString) :
    extractCommandsRef (text.map tolower)
      = (extractCommandsRef text).map (List.map tolower) := by
  simp only [extractCommandsRef, tokens_map_tolower, List.filter_map]
  congr 1
  apply List.filter_congr
  intro t _
  have : List.map tolower (List.map tolower t) = List.map tolower t := by
    rw [List.map_map]
    apply List.map_congr_left
    intro c _
    exact (tolower_shape c).2.2
  simp [Function.comp, this]

theorem extractCommands_eq_ref (text : CppString) :
    extractCommands text = .ok (extractCommandsRef text) := by
  have := extractLoop_spec (text.length + 1) text [] (by omega)
  simpa [extractCommands] using this

/-! ## Further claims about the text normaliser -/

/-- C19: lower-casing every command extracted from `text` gives exactly the
commands extracted from the lower-cased `text`; in particular both lists have the
same number of elements. -/
theorem extractCommands_commutes_with_tolower (text : CppString) :
    ∃ commands, extractCommands text = .ok commands ∧
      extractCommands (text.map tolower) = .ok (commands.map (List.map tolower)) ∧
      (commands.map (List.map tolower)).length = commands.length := by
  refine ⟨extractCommandsRef text, extractCommands_eq_ref text, ?_, by simp⟩
  rw [extractCommands_eq_ref, extractCommandsRef_map_tolower]

/-! ## Strings that `cleanText` leaves unchanged -/

theorem cleanTextVal_clean (s : CppString) : Clean (cleanTextVal s) :=
  ⟨ List.Chain'.prefix ((squeeze_chain _).suffix (List.dropWhile_suffix _))
      ( List.rdropWhile_prefix _ _),
    cleanTextVal_head s, cleanTextVal_last s, cleanTextVal_only_space s⟩

theorem squeeze_of_chain (l : CppString)
    (h : List.Chain' (fun a b => ¬ (a = ' ' ∧ b = ' ')) l) : squeeze l = l := by
  induction l with
  | nil => rfl
  | cons c cs ih =>
    cases cs with
    | nil => rfl
    | cons d r =>
      rw [List.chain'_cons] at h
      simp only [squeeze, if_neg h.1, ih h.2]

theorem clean_fixed (l : CppString) (h : Clean l) : cleanTextVal l = l := by
  obtain ⟨hchain, hhead, hlast, hsp⟩ := h
  have hf : l.filter (fun c => !(isspace c && c != ' ')) = l := by
    rw [List.filter_eq_self]
    intro c hc
    by_cases hs : isspace c = true
    · simp [hs, hsp c hc hs]
    · simp [hs]
  have hd : l.dropWhile (· == ' ') = l := by
    cases l with
    | nil => rfl
    | cons c cs =>
      have : c ≠ ' ' := by
        intro hc; apply hhead; simp [hc]
      simp [List.dropWhile_cons, this]
  have hr : l.rdropWhile (· == ' ') = l := by
    rw [List.rdropWhile_eq_self_iff]
    intro hl hp
    apply hlast
    rw [List.getLast?_eq_getLast _ hl]
    simpa using hp
  unfold cleanTextVal
  rw [hf, squeeze_of_chain l hchain, hd, hr]

theorem cleanTextVal_length_le (s : CppString) : (cleanTextVal s).length ≤ s.length :=
  le_trans (cleanTextVal_sublist s).length_le (List.length_filter_le _ _)

theorem sameShape_head {l l2 : CppString} (h : List.Forall₂ SameShape l l2) :
    l.head? = some ' ' ↔ l2.head? = some ' ' := by
  cases h with
  | nil => simp
  | cons hab _ => simp [hab.1]

theorem sameShape_last {l l2 : CppString} (h : List.Forall₂ SameShape l l2) :
    l.getLast? = some ' ' ↔ l2.getLast? = some ' ' := by
  induction h with
  | nil => simp
  | cons hab htail ih =>
    cases htail with
    | nil => simp [hab.1]
    | cons hcd hrest => simpa using ih

theorem sameShape_chain {l l2 : CppString} (h : List.Forall₂ SameShape l l2)
    (hc : List.Chain' (fun a b => ¬ (a = ' ' ∧ b = ' ')) l) :
    List.Chain' (fun a b => ¬ (a = ' ' ∧ b = ' ')) l2 := by
  induction h with
  | nil => simp
  | cons hab htail ih =>
    cases htail with
    | nil => simp
    | cons hcd hrest =>
      rw [List.chain'_cons] at hc ⊢
      refine ⟨?_, ih hc.2⟩
      intro hb
      exact hc.1 ⟨hab.1.2 hb.1, hcd.1.2 hb.2⟩

theorem sameShape_only_space {l l2 : CppString} (h : List.Forall₂ SameShape l l2)
    (hs : ∀ c ∈ l, isspace c = true → c = ' ') : ∀ c ∈ l2, isspace c = true → c = ' ' := by
  induction h with
  | nil => simp
  | cons hab _ ih =>
    intro c hc hsp
    rcases List.mem_cons.1 hc with rfl | hc
    · exact hab.1.1 (hs _ (List.mem_cons_self _ _) (by rw [hab.2]; exact hsp))
    · exact ih (fun c hc => hs c (List.mem_cons_of_mem _ hc)) c hc hsp

theorem clean_of_sameShape {l l2 : CppString} (h : List.Forall₂ SameShape l l2)
    (hc : Clean l) : Clean l2 :=
  ⟨sameShape_chain h hc.1, fun h2 => hc.2.1 ((sameShape_head h).2 h2),
    fun h2 => hc.2.2.1 ((sameShape_last h).2 h2), sameShape_only_space h hc.2.2.2⟩

theorem sameShape_map_tolower (l : CppString) : List.Forall₂ SameShape l (l.map tolower) := by
  induction l with
  | nil => exact List.Forall₂.nil
  | cons c cs ih =>
    exact List.Forall₂.cons ⟨(tolower_shape c).1, (tolower_shape c).2.1⟩ ih

theorem capitalizeLoop_cons (flag : Bool) (c : Char) (cs : CppString) :
    capitalizeLoop flag (c :: cs)
      = (if flag = true then toupper c else c) :: capitalizeLoop (isspace c) cs := by
  by_cases hc : isspace c = true
  · by_cases hf : flag = true <;> simp [capitalizeLoop, hc, hf, toupper_of_isspace c hc]
  · by_cases hf : flag = true
    · simp [capitalizeLoop, hc, hf]
    · simp only [Bool.not_eq_true] at hc hf
      simp [capitalizeLoop, hc, hf]

theorem sameShape_capitalizeLoop (l : CppString) :
    ∀ flag, List.Forall₂ SameShape l (capitalizeLoop flag l) := by
  induction l with
  | nil => intro flag; exact List.Forall₂.nil
  | cons c cs ih =>
    intro flag
    rw [capitalizeLoop_cons]
    refine List.Forall₂.cons ?_ (ih _)
    by_cases hf : flag = true
    · simp only [hf, if_true]; exact ⟨(toupper_shape c).1, (toupper_shape c).2.1⟩
    · simp only [hf, if_false]; exact ⟨Iff.rfl, rfl⟩

theorem capitalizeLoop_idempotent (l : CppString) :
    ∀ flag, capitalizeLoop flag (capitalizeLoop flag l) = capitalizeLoop flag l := by
  induction l with
  | nil => intro flag; rfl
  | cons c cs ih =>
    intro flag
    rw [capitalizeLoop_cons, capitalizeLoop_cons]
    by_cases hf : flag = true
    · simp only [hf, if_true, (toupper_shape c).2.2, ← (toupper_shape c).2.1, ih]
    · have hf2 : flag = false := by simpa using hf
      subst hf2
      simp [ih]

/-! ## `formatForForm` applied twice -/

theorem formatForForm_phone_eq (w : Nat) (text : CppString) (h : text.length < npos w) :
    formatForForm w text "phone".toList =
      .ok (if (text.filter isdigit).length = 10 then phoneFormat (text.filter isdigit)
        else text.filter isdigit) := by
  rw [formatForForm_phone_val w text h]
  by_cases hlen : (text.filter isdigit).length = 10
  · simp [substr, hlen, phoneFormat]
  · simp [hlen]

theorem formatForForm_not_phone (w : Nat) (text fieldType : CppString)
    (h : text.length < npos w) (hp : fieldType ≠ "phone".toList) :
    formatForForm w text fieldType =
      .ok (if fieldType = "email".toList then (cleanTextVal text).map tolower
        else if fieldType = "name".toList then capitalizeLoop true (cleanTextVal text)
        else cleanTextVal text) := by
  simp only [formatForForm, cleanText_eq_val w text h, if_neg hp]
  split
  · rfl
  · split <;> rfl

theorem filter_isdigit_phoneFormat (d : CppString) (hd : ∀ c ∈ d, isdigit c = true)
    (hlen : d.length = 10) : (phoneFormat d).filter isdigit = d := by
  have hsub : ∀ l : CppString, l.Sublist d → l.filter isdigit = l := by
    intro l hl
    rw [List.filter_eq_self]
    intro c hc
    exact hd c (hl.subset hc)
  have h1 := hsub (d.take 3) (List.take_sublist _ _)
  have h2 := hsub ((d.drop 3).take 3) ((List.take_sublist _ _).trans (List.drop_sublist _ _))
  have h3 := hsub ((d.drop 6).take 4) ((List.take_sublist _ _).trans (List.drop_sublist _ _))
  have e1 : isdigit '(' = false := by decide
  have e2 : isdigit ')' = false := by decide
  have e3 : isdigit ' ' = false := by decide
  have e4 : isdigit '-' = false := by decide
  have hjoin : d.take 3 ++ ((d.drop 3).take 3 ++ (d.drop 6).take 4) = d := by
    have t1 : (d.drop 6).take 4 = d.drop 6 :=
      List.take_of_length_le (by rw [List.length_drop]; omega)
    have t2 : d.drop 6 = (d.drop 3).drop 3 := by rw [List.drop_drop]
    rw [t1, t2, List.take_append_drop, List.take_append_drop]
  simp only [phoneFormat, List.filter_append, List.filter_cons, List.filter_nil, e1, e2, e3, e4,
    h1, h2, h3]
  simpa using hjoin

theorem phoneFormat_length (d : CppString) (hlen : d.length = 10) :
    (phoneFormat d).length = 14 := by
  simp only [phoneFormat, List.length_append, List.length_take, List.length_drop,
    List.length_cons, List.length_nil, hlen]
  rfl

theorem npos_gt_fourteen (w : Nat) (h : 10 < npos w) : 14 < npos w := by
  unfold npos at *
  by_cases hw : w < 4
  · interval_cases w <;> simp at h
  · have : 2 ^ 4 ≤ 2 ^ w := Nat.pow_le_pow_right (by decide) (by omega)
    omega

theorem formatForForm_twice (w : Nat) (text fieldType : CppString) (h : text.length < npos w) :
    ∃ out, formatForForm w text fieldType = .ok out ∧
      formatForForm w out fieldType = .ok out := by
  by_cases hp : fieldType = "phone".toList
  · subst hp
    have hdig : ∀ c ∈ text.filter isdigit, isdigit c = true :=
      fun c hc => (List.mem_filter.1 hc).2
    have hdlen : (text.filter isdigit).length ≤ text.length := List.length_filter_le _ _
    refine ⟨_, formatForForm_phone_eq w text h, ?_⟩
    by_cases hlen : (text.filter isdigit).length = 10
    · have hR : (phoneFormat (text.filter isdigit)).length < npos w := by
        rw [phoneFormat_length _ hlen]
        exact npos_gt_fourteen w (by omega)
      rw [if_pos hlen, formatForForm_phone_eq w _ hR,
        filter_isdigit_phoneFormat _ hdig hlen, if_pos hlen]
    · have hff : (text.filter isdigit).filter isdigit = text.filter isdigit :=
        List.filter_eq_self.2 hdig
      rw [if_neg hlen, formatForForm_phone_eq w _ (by omega), hff, if_neg hlen]
  · have hlen := cleanTextVal_length_le text
    have hclean := cleanTextVal_clean text
    refine ⟨_, formatForForm_not_phone w text fieldType h hp, ?_⟩
    by_cases he : fieldType = "email".toList
    · have hcl : Clean ((cleanTextVal text).map tolower) :=
        clean_of_sameShape (sameShape_map_tolower _) hclean
      have hidem : ((cleanTextVal text).map tolower).map tolower
          = (cleanTextVal text).map tolower := by
        rw [List.map_map]
        apply List.map_congr_left
        intro c _
        exact (tolower_shape c).2.2
      rw [if_pos he, formatForForm_not_phone w _ fieldType (by simp; omega) hp, if_pos he,
        clean_fixed _ hcl, hidem]
    · by_cases hn : fieldType = "name".toList
      · have hcl : Clean (capitalizeLoop true (cleanTextVal text)) :=
          clean_of_sameShape (sameShape_capitalizeLoop _ true) hclean
        rw [if_neg he, if_pos hn,
          formatForForm_not_phone w _ fieldType (by rw [capitalizeLoop_length]; omega) hp,
          if_neg he, if_pos hn, clean_fixed _ hcl, capitalizeLoop_idempotent]
      · rw [if_neg he, if_neg hn, formatForForm_not_phone w _ fieldType (by omega) hp,
          if_neg he, if_neg hn, clean_fixed _ hclean]

/-- C17: for every field type, applying `formatForForm` to its own result gives
that result again; a phone number already written `(AAA) BBB-CCCC` is returned
unchanged, and `cleanText` applied to its own result gives that result again. -/
theorem formatForForm_idempotent (w : Nat) (text fieldType : CppString)
    (h : text.length < npos w) :
    (∃ out, formatForForm w text fieldType = .ok out ∧
      formatForForm w out fieldType = .ok out) ∧
    (∃ cleaned, cleanText w text = .ok cleaned ∧ cleanText w cleaned = .ok cleaned) ∧
    formatForForm 64 "(123) 456-7890".toList "phone".toList = .ok "(123) 456-7890".toList := by
  refine ⟨formatForForm_twice w text fieldType h, ?_, by decide⟩
  refine ⟨cleanTextVal text, cleanText_eq_val w text h, ?_⟩
  rw [cleanText_eq_val w _ (lt_of_le_of_lt (cleanTextVal_length_le text) h),
    clean_fixed _ (cleanTextVal_clean text)]

theorem formatForForm_idempotent_witness :
    "  ann  mcNeil ".toList.length < npos 64 ∧
    (∃ out, formatForForm 64 "  ann  mcNeil ".toList "name".toList = .ok out ∧
      formatForForm 64 out "name".toList = .ok out) ∧
    (∃ cleaned, cleanText 64 "  ann  mcNeil ".toList = .ok cleaned ∧
      cleanText 64 cleaned = .ok cleaned) ∧
    formatForForm 64 "(123) 456-7890".toList "phone".toList = .ok "(123) 456-7890".toList :=
  ⟨by decide, formatForForm_idempotent 64 "  ann  mcNeil ".toList "name".toList (by decide)⟩

/-! ## Rounding to binary32: lemmas -/

theorem float32_stdmax_finite (a b : ℚ) :
    Float32.stdmax (.finite a) (.finite b) = .finite (stdmax a b) := by
  by_cases h : a < b <;> simp [Float32.stdmax, Float32.less, stdmax, h]

theorem float32_peakLoop_finite (l : List ℚ) :
    ∀ m, Float32.peakLoop (l.map Float32.finite) (.finite m) = .finite (peakLoop l m) := by
  induction l with
  | nil => intro m; rfl
  | cons x rest ih =>
    intro m
    simp only [List.map_cons, Float32.peakLoop, Float32.stdabs, float32_stdmax_finite, ih,
      peakLoop]

theorem float32_divideLoop_finite (rnd : ℚ → ℚ) (M : ℚ) (hM : M ≠ 0) (l : List ℚ) :
    ∀ acc, Float32.divideLoop rnd (.finite M) (l.map Float32.finite) acc
      = acc ++ l.map (fun x => Float32.finite (rnd (x / M))) := by
  induction l with
  | nil => intro acc; simp [Float32.divideLoop]
  | cons x rest ih =>
    intro acc
    simp [Float32.divideLoop, Float32.fdiv, hM, ih]

/-- On finite samples the function on every `float` computes what `normalizeAudio`
on the rationals computes. -/
theorem float32_normalizeAudio_finite (rnd : ℚ → ℚ) (audio out : List ℚ)
    (h : normalizeAudio rnd audio = .ok out) :
    Float32.normalizeAudio rnd (audio.map Float32.finite) = out.map Float32.finite := by
  cases audio with
  | nil =>
    simp [normalizeAudio] at h
    subst h
    simp [Float32.normalizeAudio]
  | cons x rest =>
    have hpk := float32_peakLoop_finite (x :: rest) 0
    by_cases hp : peakLoop (x :: rest) 0 = 0
    · rw [normalizeAudio_of_peak_zero rnd _ hp] at h
      cases h
      simp only [Float32.normalizeAudio, hpk, hp, Float32.isZero]
      simp
    · rw [normalizeAudio_of_peak_ne rnd _ hp] at h
      cases h
      have hd := float32_divideLoop_finite rnd _ hp (x :: rest) []
      simp only [Float32.normalizeAudio, hpk, Float32.isZero, hd]
      simp [hp]

/-! ## Claims about the signal conditioner on float values -/

/-- C5 as stated fails on a buffer with an infinite sample: the peak is the
infinity, the infinite sample becomes NaN and the finite one `0`, so no output
sample has magnitude `1`. -/
theorem normalizeAudio_infinite_sample :
    (∃ x ∈ [Float32.pinf, Float32.finite (1 / 2)], x ≠ Float32.finite 0) ∧
    Float32.normalizeAudio binary32Round [Float32.pinf, Float32.finite (1 / 2)]
      = [Float32.nan, Float32.finite 0] ∧
    ∀ y ∈ Float32.normalizeAudio binary32Round [Float32.pinf, Float32.finite (1 / 2)],
      Float32.stdabs y ≠ Float32.finite 1 := by
  have hval : Float32.normalizeAudio binary32Round [Float32.pinf, Float32.finite (1 / 2)]
      = [Float32.nan, Float32.finite 0] := by
    simp [Float32.normalizeAudio, Float32.peakLoop, Float32.stdmax, Float32.stdabs,
      Float32.less, Float32.isZero, Float32.divideLoop, Float32.fdiv]
  refine ⟨⟨Float32.pinf, by simp, by simp⟩, hval, ?_⟩
  rw [hval]
  intro y hy
  simp only [List.mem_cons, List.mem_singleton, List.not_mem_nil, or_false] at hy
  rcases hy with rfl | rfl <;> simp [Float32.stdabs]

/-- C5, amended: for a buffer of finite samples with at least one non-zero sample,
`normalizeAudio` returns a buffer of the same length whose samples are the input
samples divided by the peak absolute magnitude `M`; every output sample is finite
with absolute value at most `1`, and one of them has absolute value exactly `1`.
The rounding is any monotone function that keeps `1` and `-1`. -/
theorem normalizeAudio_finite_peak_one (rnd : ℚ → ℚ) (hmono : Monotone rnd) (h1 : rnd 1 = 1)
    (hneg : rnd (-1) = -1) (audio : List ℚ) (hnz : ∃ x ∈ audio, x ≠ 0) :
    ∃ M, 0 < M ∧ (∀ x ∈ audio, |x| ≤ M) ∧ (∃ x ∈ audio, |x| = M) ∧
      Float32.normalizeAudio rnd (audio.map Float32.finite)
        = audio.map (fun x => Float32.finite (rnd (x / M))) ∧
      (Float32.normalizeAudio rnd (audio.map Float32.finite)).length = audio.length ∧
      (∃ y ∈ Float32.normalizeAudio rnd (audio.map Float32.finite),
        Float32.stdabs y = Float32.finite 1) ∧
      (∀ y ∈ Float32.normalizeAudio rnd (audio.map Float32.finite),
        ∃ q, y = Float32.finite q ∧ |q| ≤ 1) := by
  obtain ⟨M, hM, hle, hex, hnorm, _, hone, hall⟩ :=
    normalizeAudio_peak_one rnd hmono h1 hneg audio hnz
  have hf := float32_normalizeAudio_finite rnd audio _ hnorm
  rw [List.map_map] at hf
  refine ⟨M, hM, hle, hex, hf, by rw [hf]; simp, ?_, ?_⟩
  · obtain ⟨y, hy, hy1⟩ := hone
    obtain ⟨x, hx, rfl⟩ := List.mem_map.1 hy
    rw [hf]
    exact ⟨Float32.finite (rnd (x / M)), List.mem_map.2 ⟨x, hx, rfl⟩, by
      simp only [Float32.stdabs, hy1]⟩
  · intro y hy
    rw [hf] at hy
    obtain ⟨x, hx, rfl⟩ := List.mem_map.1 hy
    exact ⟨rnd (x / M), rfl, hall _ (List.mem_map.2 ⟨x, hx, rfl⟩)⟩

theorem normalizeAudio_finite_peak_one_witness :
    Monotone (id : ℚ → ℚ) ∧ (∃ x ∈ [(1 / 4 : ℚ), -2, 1], x ≠ 0) ∧
    ∃ M, 0 < M ∧ (∀ x ∈ [(1 / 4 : ℚ), -2, 1], |x| ≤ M) ∧ (∃ x ∈ [(1 / 4 : ℚ), -2, 1], |x| = M) ∧
      Float32.normalizeAudio id ([(1 / 4 : ℚ), -2, 1].map Float32.finite)
        = [(1 / 4 : ℚ), -2, 1].map (fun x => Float32.finite (id (x / M))) ∧
      (Float32.normalizeAudio id ([(1 / 4 : ℚ), -2, 1].map Float32.finite)).length
        = [(1 / 4 : ℚ), -2, 1].length ∧
      (∃ y ∈ Float32.normalizeAudio id ([(1 / 4 : ℚ), -2, 1].map Float32.finite),
        Float32.stdabs y = Float32.finite 1) ∧
      (∀ y ∈ Float32.normalizeAudio id ([(1 / 4 : ℚ), -2, 1].map Float32.finite),
        ∃ q, y = Float32.finite q ∧ |q| ≤ 1) :=
  ⟨monotone_id, ⟨1, by simp, by norm_num⟩,
    normalizeAudio_finite_peak_one id monotone_id rfl rfl [(1 / 4 : ℚ), -2, 1]
      ⟨1, by simp, by norm_num⟩⟩

end VoiceBridge
